import Mathlib

/-!
Verification development for the SWE-Bench patch-validation orchestrator
(`src/runner/src/parallel_validator.py` and
`src/runner/docker/tester/tester_service/tester.py`).

Strings from the Python code are modelled as `List Char`; Python `re`
searches are modelled by dedicated scanning functions whose behaviour on the
relevant pattern shapes coincides with the leftmost-search backtracking
semantics of the corresponding regular expressions.  Python integers are
modelled as `Int` (counts parsed from digit groups are `Nat` casts), and the
float complexity weights of the dispatcher are modelled as exact rationals.
-/

namespace SwebV

/-! ### Python-style character and string primitives -/

/-- The whitespace set of Python's `str.strip` / `re` `\s` on ASCII text. -/
def pyIsSpace (c : Char) : Bool :=
  c = ' ' || c = '\t' || c = '\n' || c = '\r' || c = '\x0b' || c = '\x0c'

/-- `leadsWith p l` : `p` is a prefix of `l` (the anchored part of a regex). -/
def leadsWith : List Char → List Char → Bool
  | [], _ => true
  | _ :: _, [] => false
  | p :: ps, x :: xs => p = x && leadsWith ps xs

/-- Does `f` hold on some suffix of `l` (including the empty suffix)?  This is
the "try each start position" part of Python's `re.search`. -/
def anySuffix (f : List Char → Bool) : List Char → Bool
  | [] => f []
  | x :: xs => f (x :: xs) || anySuffix f xs

/-- First suffix (leftmost start position) on which `f` produces a value. -/
def firstSome {α : Type} (f : List Char → Option α) : List Char → Option α
  | [] => f []
  | x :: xs =>
    match f (x :: xs) with
    | some a => some a
    | none => firstSome f xs

/-- Python `needle in hay` on strings. -/
def containsSub (needle hay : List Char) : Bool :=
  anySuffix (leadsWith needle) hay

/-- Python `str.split(sep)` for a one-character separator (keeps empties). -/
def splitOnChar (sep : Char) : List Char → List (List Char)
  | [] => [[]]
  | x :: xs =>
    match splitOnChar sep xs with
    | [] => [[]]
    | cur :: rest => if x = sep then [] :: cur :: rest else (x :: cur) :: rest

/-- Python `str.strip()` (ASCII whitespace). -/
def pyStrip (l : List Char) : List Char :=
  ((l.dropWhile pyIsSpace).reverse.dropWhile pyIsSpace).reverse

/-- Auxiliary for `pySplitWs`: accumulates the current token (reversed). -/
def pySplitWsAux : List Char → List Char → List (List Char)
  | [], acc => if acc.isEmpty then [] else [acc.reverse]
  | c :: cs, acc =>
    if pyIsSpace c then
      if acc.isEmpty then pySplitWsAux cs [] else acc.reverse :: pySplitWsAux cs []
    else pySplitWsAux cs (c :: acc)

/-- Python `str.split()` with no argument: split on whitespace runs. -/
def pySplitWs (l : List Char) : List (List Char) := pySplitWsAux l []

def isDigitCh (c : Char) : Bool := '0' ≤ c && c ≤ '9'

def digitVal (c : Char) : Nat := c.toNat - '0'.toNat

def natOfDigits (l : List Char) : Nat := l.foldl (fun a c => a * 10 + digitVal c) 0

/-- Digits of a Python `int()` literal after the sign: a digit run in which a
single underscore may be placed between two digits. -/
def pyIntDigitsAux : Nat → List Char → Option Nat
  | acc, [] => some acc
  | acc, c :: cs =>
    if isDigitCh c then pyIntDigitsAux (acc * 10 + digitVal c) cs
    else if c = '_' then
      match cs with
      | d :: _ => if isDigitCh d then pyIntDigitsAux acc cs else none
      | [] => none
    else none

def pyIntDigits : List Char → Option Nat
  | [] => none
  | c :: cs => if isDigitCh c then pyIntDigitsAux (digitVal c) cs else none

/-- Model of Python `int(s)` on ASCII text: optional surrounding whitespace,
optional sign, then digits (with legal underscores). -/
def pyInt (l : List Char) : Option Int :=
  match pyStrip l with
  | [] => none
  | c :: rest =>
    if c = '+' then (pyIntDigits rest).map (fun n => (n : Int))
    else if c = '-' then (pyIntDigits rest).map (fun n => -(n : Int))
    else (pyIntDigits (c :: rest)).map (fun n => (n : Int))

/-! ### Test statistics (`TestOutcome`) -/

/-- The stats dictionary produced by `_parse_pytest` / `_parse_django_output`
and consumed by `ParallelValidator.validate_instance_on_worker`. -/
structure Stats where
  collected : Int
  passed : Int
  failed : Int
  errors : Int
  skipped : Int
deriving DecidableEq, Repr

def zeroStats : Stats := ⟨0, 0, 0, 0, 0⟩

/-! ### Contract verifier (`validate_instance_on_worker`, lines 101-136) -/

/-- `failed == 0 and errors == 0 and (passed > 0 or collected > 0)` — the
"run counts as passed" test applied to each of the two runs. -/
def runCountsAsPassed (s : Stats) : Bool :=
  (s.failed == 0) && (s.errors == 0) &&
    (decide (0 < s.passed) || decide (0 < s.collected))

/-- `is_valid = not test_only_passed and with_fix_passed`. -/
def derivedValid (s1 s2 : Stats) : Bool :=
  !(runCountsAsPassed s1) && runCountsAsPassed s2

/-- C1: in derived two-phase mode, `valid = true` iff the test-only run does
not count as passed and the with-fix run counts as passed; a run counts as
passed iff `failed = 0 ∧ errors = 0 ∧ (passed > 0 ∨ collected > 0)`; in
particular a passing test-only run forces `valid = false`. -/
theorem derived_two_phase_contract (s1 s2 : Stats) :
    (derivedValid s1 s2 = true ↔
      (runCountsAsPassed s1 = false ∧ runCountsAsPassed s2 = true)) ∧
    (runCountsAsPassed s1 = true ↔
      (s1.failed = 0 ∧ s1.errors = 0 ∧ (0 < s1.passed ∨ 0 < s1.collected))) ∧
    (runCountsAsPassed s1 = true → derivedValid s1 s2 = false) := by
  refine ⟨?_, ?_, ?_⟩
  · simp [derivedValid]
  · simp [runCountsAsPassed, and_assoc]
  · intro h
    simp [derivedValid, h]

/-- Witness for C1 at concrete stats: a test-only run with one passed test and
no failures invalidates the instance. -/
theorem derived_two_phase_contract_witness :
    derivedValid ⟨1, 1, 0, 0, 0⟩ ⟨1, 1, 0, 0, 0⟩ = false :=
  (derived_two_phase_contract ⟨1, 1, 0, 0, 0⟩ ⟨1, 1, 0, 0, 0⟩).2.2 (by decide)

/-! ### Generic-runner output parsing (`_parse_pytest`, tester.py 707-794) -/

def sERRORcollecting : List Char := "ERROR collecting".data
def sCollectionFailed : List Char := "collection failed".data
def sERRORcolon : List Char := "ERROR:".data
def sINTERNALERROR : List Char := "INTERNALERROR>".data
def sNoTestsRan : List Char := "= no tests ran in".data
def sPassed : List Char := "passed".data
def sFailed : List Char := "failed".data
def sError : List Char := "error".data
def sErrors : List Char := "errors".data
def sSkipped : List Char := "skipped".data
def sCollected : List Char := "collected".data
def sItem : List Char := "item".data
def sPASSED : List Char := "PASSED".data
def sFAILED : List Char := "FAILED".data
def sSKIPPED : List Char := "SKIPPED".data
def sTestUnd : List Char := "test_".data
def sOK : List Char := "OK".data
def sPctBracket : List Char := "%]".data

/-- tester.py 714-723: a line that short-circuits parsing to a single error
(collection-phase errors and internal/config errors). -/
def errShortLine (line : List Char) : Bool :=
  containsSub sERRORcollecting line ||
  containsSub sCollectionFailed (line.map Char.toLower) ||
  leadsWith sERRORcolon (pyStrip line) ||
  containsSub sINTERNALERROR line

def collectionErr (lines : List (List Char)) : Bool := lines.any errShortLine

/-- Anchored attempt of `re.search(r'=+\s*([\d.]+s.*?)=+$', line)` at the head
of `l`, returning the capture group.  The `=+` run, the whitespace run and the
`[\d.]+` run are forced because the next pattern piece cannot match their
characters; the lazy `.*?` stops where the maximal trailing `=` run begins. -/
def summaryTimeAt (l : List Char) : Option (List Char) :=
  match l with
  | '=' :: _ =>
    let afterSp := (l.dropWhile (fun c => c = '=')).dropWhile pyIsSpace
    let digs := afterSp.takeWhile (fun c => isDigitCh c || c = '.')
    if digs.isEmpty then none
    else
      match afterSp.dropWhile (fun c => isDigitCh c || c = '.') with
      | 's' :: rest =>
        let trail := rest.reverse.takeWhile (fun c => c = '=')
        if trail.isEmpty then none
        else some (digs ++ 's' :: rest.take (rest.length - trail.length))
      | _ => none
  | _ => none

def summaryTime (line : List Char) : Option (List Char) :=
  firstSome summaryTimeAt line

/-- Anchored attempt of `re.search(r'(\d+)\s+<word>', l)` at the head. -/
def numThenWordAt (w : List Char) (l : List Char) : Option Nat :=
  match l with
  | c :: _ =>
    if isDigitCh c then
      let rest := l.dropWhile isDigitCh
      if (rest.takeWhile pyIsSpace).isEmpty then none
      else if leadsWith w (rest.dropWhile pyIsSpace) then
        some (natOfDigits (l.takeWhile isDigitCh))
      else none
    else none
  | [] => none

def findNumThenWord (w line : List Char) : Option Nat :=
  firstSome (numThenWordAt w) line

/-- tester.py 730-740: extract the itemized counts from the summary text. -/
def updFromSummary (inner : List Char) (st : Stats) : Stats :=
  let s1 := match findNumThenWord sPassed inner with
    | some n => { st with passed := (n : Int) }
    | none => st
  let s2 := match findNumThenWord sFailed inner with
    | some n => { s1 with failed := (n : Int) }
    | none => s1
  let s3 := match findNumThenWord sError inner with
    | some n => { s2 with errors := (n : Int) }
    | none => s2
  match findNumThenWord sSkipped inner with
  | some n => { s3 with skipped := (n : Int) }
  | none => s3

/-- `any(stats[k] > 0 for k in ["passed", "failed", "errors", "skipped"])`. -/
def anyPFES (st : Stats) : Bool :=
  decide (0 < st.passed) || decide (0 < st.failed) ||
  decide (0 < st.errors) || decide (0 < st.skipped)

/-- `sum(stats.values())`. -/
def sumAll (st : Stats) : Int :=
  st.collected + st.passed + st.failed + st.errors + st.skipped

/-- `re.match(r'^=+\s*\d+\s+(passed|failed|error|skipped)', line)` as a test. -/
def countLineHit (line : List Char) : Bool :=
  match line with
  | '=' :: _ =>
    let r2 := (line.dropWhile (fun c => c = '=')).dropWhile pyIsSpace
    let r3 := r2.dropWhile isDigitCh
    let r4 := r3.dropWhile pyIsSpace
    !(r2.takeWhile isDigitCh).isEmpty && !(r3.takeWhile pyIsSpace).isEmpty &&
      (leadsWith sPassed r4 || leadsWith sFailed r4 ||
       leadsWith sError r4 || leadsWith sSkipped r4)
  | _ => false

/-- tester.py 756-765: one token of the `line.split()` scan; `prev` is the
token at the preceding index (`parts[i-1]`, which is `parts[-1]` at `i = 0`). -/
def applyTok (t prev : List Char) (st : Stats) : Stats :=
  if t = sPassed then
    match pyInt prev with
    | some n => { st with passed := n }
    | none => st
  else if t = sFailed then
    match pyInt prev with
    | some n => { st with failed := n }
    | none => st
  else if t = sError ∨ t = sErrors then
    match pyInt prev with
    | some n => { st with errors := n }
    | none => st
  else if t = sSkipped then
    match pyInt prev with
    | some n => { st with skipped := n }
    | none => st
  else st

def partsUpd (lastTok : List Char) :
    Option (List Char) → List (List Char) → Stats → Stats
  | _, [], st => st
  | prevOpt, t :: ts, st =>
    partsUpd lastTok (some t) ts (applyTok t (prevOpt.getD lastTok) st)

/-- The branch structure of one iteration of the summary loop, after the
timing-summary extraction has updated the stats to `st1`. -/
def scanStep2 (l : List Char) (st1 : Stats) (isSum : Bool) : Stats × Bool :=
  if isSum && anyPFES st1 then ({ st1 with collected := sumAll st1 }, true)
  else if containsSub sNoTestsRan l then ({ st1 with collected := 0 }, true)
  else if countLineHit l then
    (partsUpd ((pySplitWs l).getLastD []) none (pySplitWs l) st1, false)
  else (st1, false)

/-- One iteration of the summary loop (tester.py 726-765). -/
def scanStep (l : List Char) (st : Stats) : Stats × Bool :=
  scanStep2 l
    (match summaryTime l with
     | some inner => updFromSummary inner st
     | none => st)
    (summaryTime l).isSome

/-- tester.py 726-765: the summary scan over the lines; the flag records
whether the Python code returned from inside the loop. -/
def scanLines : List (List Char) → Stats → Stats × Bool
  | [], st => (st, false)
  | l :: ls, st =>
    match scanStep l st with
    | (st1, true) => (st1, true)
    | (st1, false) => scanLines ls st1

/-- Anchored attempt of `re.search(r'collected\s+(\d+)', l)` at the head. -/
def collectedNumAt (l : List Char) : Option Nat :=
  if leadsWith sCollected l then
    let r := l.drop sCollected.length
    let digs := (r.dropWhile pyIsSpace).takeWhile isDigitCh
    if !(r.takeWhile pyIsSpace).isEmpty && !digs.isEmpty then
      some (natOfDigits digs)
    else none
  else none

/-- tester.py 768-773: find the `collected N item(s)` marker. -/
def collectedScan : List (List Char) → Option Nat
  | [] => none
  | l :: ls =>
    if containsSub sCollected l && containsSub sItem l then
      match firstSome collectedNumAt l with
      | some n => some n
      | none => collectedScan ls
    else collectedScan ls

/-- Anchored attempt of `\.+\s*\[\s*\d+%\]` at the head. -/
def dotsPercentAt (l : List Char) : Bool :=
  match l with
  | '.' :: _ =>
    match (l.dropWhile (fun c => c = '.')).dropWhile pyIsSpace with
    | '[' :: r3 =>
      let r4 := r3.dropWhile pyIsSpace
      !(r4.takeWhile isDigitCh).isEmpty &&
        leadsWith sPctBracket (r4.dropWhile isDigitCh)
    | _ => false
  | _ => false

def isWordCh (c : Char) : Bool := c.isAlpha || isDigitCh c || c = '_'

/-- Earliest offset at which `PASSED` or `OK` matches, with the length of the
alternative that matched (the terminator of the lazy `.*?`). -/
def findTermSuffix : List Char → Option (Nat × Nat)
  | [] => none
  | c :: cs =>
    if leadsWith sPASSED (c :: cs) then some (0, 6)
    else if leadsWith sOK (c :: cs) then some (0, 2)
    else (findTermSuffix cs).map (fun p => (p.1 + 1, p.2))

/-- Backtracking of `test_\w+.*?(?:PASSED|OK)` over the width of `\w+`,
widest first, returning the overall match length. -/
def tryWidths (l : List Char) : Nat → Option Nat
  | 0 => none
  | w + 1 =>
    match findTermSuffix (l.drop (5 + (w + 1))) with
    | some p => some (5 + (w + 1) + p.1 + p.2)
    | none => tryWidths l w

/-- Anchored match of `(?:PASSED|test_\w+.*?(?:PASSED|OK))` with its length. -/
def testOkAt (l : List Char) : Option Nat :=
  if leadsWith sPASSED l then some 6
  else if leadsWith sTestUnd l then
    tryWidths l ((l.drop 5).takeWhile isWordCh).length
  else none

/-- Non-overlapping leftmost match count, as `len(re.findall(...))`. -/
def scanCount (m : List Char → Option Nat) : Nat → List Char → Nat
  | 0, _ => 0
  | _, [] => 0
  | fuel + 1, c :: cs =>
    match m (c :: cs) with
    | some len => 1 + scanCount m fuel ((c :: cs).drop len)
    | none => scanCount m fuel cs

def testOkCount (out : List Char) : Nat := scanCount testOkAt out.length out

def allZeroStats (st : Stats) : Bool :=
  (st.collected == 0) && (st.passed == 0) && (st.failed == 0) &&
  (st.errors == 0) && (st.skipped == 0)

/-- tester.py 776-788: the last-resort heuristic over the raw output. -/
def heuristicStep (out : List Char) (st : Stats) : Stats :=
  if allZeroStats st && !(pyStrip out).isEmpty then
    if anySuffix dotsPercentAt out || containsSub sPASSED out ||
        containsSub sFAILED out || containsSub sSKIPPED out then
      let lower := out.map Char.toLower
      if !(containsSub sFailed lower) && !(containsSub sError lower) then
        let c := testOkCount out
        if 0 < c then { st with passed := (c : Int), collected := (c : Int) }
        else st
      else { st with errors := 1 }
    else st
  else st

/-- tester.py 791-792: recover `collected` from the itemized counts. -/
def finalFix (st : Stats) : Stats :=
  if st.collected == 0 && anyPFES st then { st with collected := sumAll st }
  else st

/-- `_parse_pytest` (tester.py 707-794). -/
def parsePytest (out : List Char) : Stats :=
  let lines := splitOnChar ('\n') (pyStrip out)
  if collectionErr lines then { zeroStats with errors := 1 }
  else
    match scanLines lines zeroStats with
    | (st, true) => st
    | (st, false) =>
      let st2 := match collectedScan lines with
        | some n => { st with collected := (n : Int) }
        | none => st
      finalFix (heuristicStep out st2)

/-! ### Custom-runner output parsing (`_parse_django_output`, tester.py
797-850) -/

def sRanSp : List Char := "Ran ".data
def sSpTestsIn : List Char := " tests in".data
def sSpTestIn : List Char := " test in".data
def sFailure : List Char := "failure".data
def sSkippe : List Char := "skippe".data
def sTripleDot : List Char := "...".data
def sLowOk : List Char := "ok".data
def sFAIL : List Char := "FAIL".data
def sERRORword : List Char := "ERROR".data

/-- Anchored attempt of `re.search(r'Ran (\d+) tests? in', output)`. -/
def ranAt (l : List Char) : Option Nat :=
  if leadsWith sRanSp l then
    let r := l.drop 4
    let digs := r.takeWhile isDigitCh
    let r2 := r.dropWhile isDigitCh
    if digs.isEmpty then none
    else if leadsWith sSpTestsIn r2 || leadsWith sSpTestIn r2 then
      some (natOfDigits digs)
    else none
  else none

def ranMatch (out : List Char) : Option Nat := firstSome ranAt out

/-- Anchored attempt of `\nOK\s*$` (with `re.MULTILINE`): after `OK`, the
`\s*` run must reach either the end of the string or a `\n`. -/
def okLineAt (l : List Char) : Bool :=
  match l with
  | '\n' :: rest =>
    if leadsWith sOK rest then
      let r2 := rest.drop 2
      (r2.dropWhile pyIsSpace).isEmpty || (r2.takeWhile pyIsSpace).contains ('\n')
    else false
  | _ => false

def hasOkLine (out : List Char) : Bool := anySuffix okLineAt out

/-- Anchored attempt of `\nFAILED\s*\(`. -/
def failedParenAt (l : List Char) : Bool :=
  match l with
  | '\n' :: rest =>
    if leadsWith sFAILED rest then
      match (rest.drop 6).dropWhile pyIsSpace with
      | '(' :: _ => true
      | _ => false
    else false
  | _ => false

def hasFailedParen (out : List Char) : Bool := anySuffix failedParenAt out

/-- Anchored attempt of `FAILED\s*\(([^)]+)\)`, returning the capture group
(the text between the parentheses). -/
def failedGroupAt (l : List Char) : Option (List Char) :=
  if leadsWith sFAILED l then
    match (l.drop 6).dropWhile pyIsSpace with
    | '(' :: r2 =>
      let inner := r2.takeWhile (fun c => c ≠ ')')
      if inner.isEmpty then none
      else
        match r2.dropWhile (fun c => c ≠ ')') with
        | ')' :: _ => some inner
        | _ => none
    | _ => none
  else none

def failedGroup (out : List Char) : Option (List Char) :=
  firstSome failedGroupAt out

/-- Anchored attempt of `<stem><opt>?=(\d+)` (e.g. `failures?=(\d+)`,
`skipped?=(\d+)` whose stem is `skippe` with optional `d`). -/
def namedCountAt (stem : List Char) (opt : Char) (l : List Char) : Option Nat :=
  if leadsWith stem l then
    let r := l.drop stem.length
    let r2 := match r with
      | c :: rest => if c = opt then rest else r
      | [] => r
    match r2 with
    | '=' :: ds =>
      let digs := ds.takeWhile isDigitCh
      if digs.isEmpty then none else some (natOfDigits digs)
    | _ => none
  else none

def namedCount (stem : List Char) (opt : Char) (details : List Char) :
    Option Nat :=
  firstSome (namedCountAt stem opt) details

/-- Anchored attempt of the per-test fallback pattern
`(\w+)\s+\(\S+\)\s+\.\.\.\s+<suffix>`, returning the match length.  The
backtracking collapses: each run is forced, and the `\)` must close the
maximal `\S+` run. -/
def resultLineAt (suffix : List Char) (l : List Char) : Option Nat :=
  match l with
  | c :: _ =>
    if isWordCh c then
      let run := l.takeWhile isWordCh
      let r1 := l.drop run.length
      let sp1 := r1.takeWhile pyIsSpace
      if sp1.isEmpty then none
      else
        match r1.dropWhile pyIsSpace with
        | '(' :: r3 =>
          let nsp := r3.takeWhile (fun c => !(pyIsSpace c))
          if nsp.length < 2 ∨ nsp.getLast? ≠ some ')' then none
          else
            let r4 := r3.drop nsp.length
            let sp2 := r4.takeWhile pyIsSpace
            if sp2.isEmpty then none
            else
              let r5 := r4.dropWhile pyIsSpace
              if leadsWith sTripleDot r5 then
                let r6 := r5.drop 3
                let sp3 := r6.takeWhile pyIsSpace
                if sp3.isEmpty then none
                else if leadsWith suffix (r6.dropWhile pyIsSpace) then
                  some (run.length + sp1.length + 1 + nsp.length +
                        sp2.length + 3 + sp3.length + suffix.length)
                else none
              else none
        | _ => none
    else none
  | [] => none

def resultLineCount (suffix out : List Char) : Nat :=
  scanCount (resultLineAt suffix) out.length out

/-- `_parse_django_output` (tester.py 797-850). -/
def parseDjango (out : List Char) : Stats :=
  match ranMatch out with
  | some n =>
    let st : Stats := { zeroStats with collected := (n : Int) }
    if hasOkLine out then { st with passed := (n : Int) }
    else if hasFailedParen out then
      match failedGroup out with
      | some details =>
        let f : Int := ((namedCount sFailure 's' details).getD 0 : Nat)
        let e : Int := ((namedCount sError 's' details).getD 0 : Nat)
        let s : Int := ((namedCount sSkippe 'd' details).getD 0 : Nat)
        { st with failed := f, errors := e, skipped := s,
                  passed := max 0 ((n : Int) - f - e - s) }
      | none =>
        { st with failed := 1, passed := max 0 ((n : Int) - 1) }
    else st
  | none =>
    let p := resultLineCount sLowOk out
    let f := resultLineCount sFAIL out
    let e := resultLineCount sERRORword out
    let s := resultLineCount sSkipped out
    if 0 < p + f + e + s then
      ⟨(p + f + e + s : Nat), (p : Nat), (f : Nat), (e : Nat), (s : Nat)⟩
    else zeroStats

/-! ### Sandbox lifecycle of `run_test` (tester.py 171-327) -/

inductive Ev
  | provision
  | applyPatch
  | runTests
  | teardown (ok : Bool)
deriving DecidableEq, Repr

def isTeardown : Ev → Bool
  | Ev.teardown _ => true
  | _ => false

def isApplyPatchEv : Ev → Bool
  | Ev.applyPatch => true
  | _ => false

def isRunTestsEv : Ev → Bool
  | Ev.runTests => true
  | _ => false

/-- External failure points of one validation attempt inside `run_test`. -/
structure Faults where
  startFails : Bool
  patchRc : Nat
  patchStderr : List Char
  execTimeout : Bool

inductive Outcome
  | ok
  | httpErr (code : Nat) (msg : List Char)
deriving DecidableEq, Repr

def sPatchFailedNl : List Char := "Patch failed:\n".data
def sStartFailed : List Char := "container start failed".data
def sTimedOut : List Char := "Test execution timed-out".data

/-- The `try:` body of `run_test` (tester.py 187-320): provision the
container (`check=True`, a failure raises), skip the patch apply when the
patch text is empty or whitespace-only, abort with HTTP 422 carrying the
first 400 characters of `git apply`'s stderr on a non-zero exit, and map a
test-command timeout to HTTP 504. -/
def runTestBody (patch : List Char) (f : Faults) : Outcome × List Ev :=
  if f.startFails then (Outcome.httpErr 500 sStartFailed, [Ev.provision])
  else if !(pyStrip patch).isEmpty then
    if f.patchRc ≠ 0 then
      (Outcome.httpErr 422 (sPatchFailedNl ++ f.patchStderr.take 400),
        [Ev.provision, Ev.applyPatch])
    else if f.execTimeout then
      (Outcome.httpErr 504 sTimedOut,
        [Ev.provision, Ev.applyPatch, Ev.runTests])
    else (Outcome.ok, [Ev.provision, Ev.applyPatch, Ev.runTests])
  else if f.execTimeout then
    (Outcome.httpErr 504 sTimedOut, [Ev.provision, Ev.runTests])
  else (Outcome.ok, [Ev.provision, Ev.runTests])

/-- `run_test` with its `finally:` block (tester.py 325-327): the forced
`docker rm -f` teardown is appended on every path; its output is discarded
and its exit status (`teardownOk`) influences nothing. -/
def runTestFull (patch : List Char) (f : Faults) (teardownOk : Bool) :
    Outcome × List Ev :=
  ((runTestBody patch f).1,
    (runTestBody patch f).2 ++ [Ev.teardown teardownOk])

/-! ### Runner selection (tester.py 265-292, improved_tester.py 63-104) -/

inductive RunnerKind
  | custom
  | generic
deriving DecidableEq, Repr

def sDunder : List Char := "__".data
def sDjango : List Char := "django".data

/-- The characters before the first occurrence of `sep`
(Python `s.split(sep)[0]` for a non-empty separator). -/
def beforeSep (sep : List Char) : List Char → List Char
  | [] => []
  | c :: cs => if leadsWith sep (c :: cs) then [] else c :: beforeSep sep cs

/-- tester.py 265-267: `repo_name = r.instance_id.split("__")[0]`,
`is_django = repo_name == "django"`; the presence of `manage.py` at the
repository root is available but not consulted for runner selection (it only
chooses between `manage.py test` and `runtests.py` inside the Django path,
tester.py 668-690). -/
def runnerForTester (instanceId : List Char) (managePyAtRoot : Bool) :
    RunnerKind :=
  if beforeSep sDunder instanceId = sDjango then RunnerKind.custom
  else RunnerKind.generic

/-- improved_tester.py 63-104: the custom runner is selected iff `manage.py`
exists at the located repository root. -/
def runnerForImproved (managePyAtRoot : Bool) : RunnerKind :=
  if managePyAtRoot then RunnerKind.custom else RunnerKind.generic

/-! ### Dispatcher / load balancer
(`ParallelValidator.distribute_load`, parallel_validator.py 155-202).
Float arithmetic on the complexity weights is modelled exactly, as rational
numbers; the only operations used are addition and order comparisons. -/

/-- One validation unit, restricted to the fields `distribute_load` and
`validate_all` read (`instance_id` and `repo`). -/
structure Inst where
  instanceId : List Char
  repo : List Char
deriving DecidableEq, Repr

/-- The `REPO_COMPLEXITY` dict (parallel_validator.py 24-37), as an
association list; the decimal float weights are the exact rationals below. -/
def repoComplexityTable : List (List Char × ℚ) :=
  [(("django/django").data, 3), (("sympy/sympy").data, 5 / 2),
   (("matplotlib/matplotlib").data, 2), (("scikit-learn/scikit-learn").data, 2),
   (("sphinx-doc/sphinx").data, 3 / 2), (("astropy/astropy").data, 3 / 2),
   (("pytest-dev/pytest").data, 6 / 5), (("pydata/xarray").data, 6 / 5),
   (("pylint-dev/pylint").data, 1), (("psf/requests").data, 4 / 5),
   (("mwaskom/seaborn").data, 1), (("pallets/flask").data, 4 / 5)]

/-- `REPO_COMPLEXITY.get(repo, 1.0)`. -/
def REPO_COMPLEXITY (repo : List Char) : ℚ :=
  match repoComplexityTable.find? (fun p => p.1 == repo) with
  | some p => p.2
  | none => 1

/-- `defaultdict(list)` grouping in insertion order: append `i` to the entry
keyed by its repo, creating the entry at the end on first sight. -/
def addToGroups : List (List Char × List Inst) → Inst →
    List (List Char × List Inst)
  | [], i => [(i.repo, [i])]
  | (k, l) :: rest, i =>
    if k = i.repo then (k, l ++ [i]) :: rest
    else (k, l) :: addToGroups rest i

def groupByRepo (insts : List Inst) : List (List Char × List Inst) :=
  insts.foldl addToGroups []

/-- `complexity = REPO_COMPLEXITY.get(repo, 1.0) * len(insts)`. -/
def groupLoad (W : List Char → ℚ) (g : List Char × List Inst) : ℚ :=
  W g.1 * (g.2.length : ℚ)

/-- Stable insertion for descending loads: a group goes after every earlier
group of greater-or-equal load (Python's stable `sort(reverse=True)`). -/
def insertDesc (W : List Char → ℚ) (g : List Char × List Inst) :
    List (List Char × List Inst) → List (List Char × List Inst)
  | [] => [g]
  | h :: t =>
    if groupLoad W h < groupLoad W g then g :: h :: t
    else h :: insertDesc W g t

def sortGroups (W : List Char → ℚ) (gs : List (List Char × List Inst)) :
    List (List Char × List Inst) :=
  gs.foldl (fun acc g => insertDesc W g acc) []

/-- Key deduplication of `{url: [] for url in self.worker_urls}`: first
occurrences survive, in order (`seen` collects the keys already emitted). -/
def dedupKeysAux (seen : List (List Char)) : List (List Char) → List (List Char)
  | [] => []
  | w :: ws =>
    if seen.contains w then dedupKeysAux seen ws
    else w :: dedupKeysAux (w :: seen) ws

def dedupKeys (ws : List (List Char)) : List (List Char) := dedupKeysAux [] ws

/-- Dispatcher state: one `(load, assigned instances)` pair per worker, in
worker-list order. -/
abbrev WState := List (ℚ × List Inst)

def initState (ws : List (List Char)) : WState := ws.map (fun _ => (0, []))

def listMinQ : List ℚ → ℚ
  | [] => 0
  | [x] => x
  | x :: y :: r => min x (listMinQ (y :: r))

def listMaxQ : List ℚ → ℚ
  | [] => 0
  | [x] => x
  | x :: y :: r => max x (listMaxQ (y :: r))

def wLoads (s : WState) : List ℚ := s.map (fun p => p.1)

/-- Give the whole group to the first worker whose load equals `m` (Python's
`min(worker_loads.items(), key=...)` returns the first minimising entry). -/
def bumpMin (m : ℚ) (g : List Inst) (gl : ℚ) : WState → WState
  | [] => []
  | (l, a) :: rest =>
    if l = m then (l + gl, a ++ g) :: rest
    else (l, a) :: bumpMin m g gl rest

def assignStep (W : List Char → ℚ) (s : WState)
    (grp : List Char × List Inst) : WState :=
  bumpMin (listMinQ (wLoads s)) grp.2 (groupLoad W grp) s

/-- `ParallelValidator.distribute_load` (parallel_validator.py 155-202):
group by repository, sort the groups by total load descending (stably), then
greedily hand each whole group to the currently least-loaded worker.  The
result is parallel to `dedupKeys ws`. -/
def distributeLoad (W : List Char → ℚ) (insts : List Inst)
    (ws : List (List Char)) : WState :=
  (sortGroups W (groupByRepo insts)).foldl (assignStep W)
    (initState (dedupKeys ws))

/-- The instance list of worker `i` in the final assignment. -/
def wlist (s : WState) (i : Nat) : List Inst := (s.getD i (0, [])).2

/-- The load bound of the claim: the largest single repository-group load. -/
def maxGroupLoad (W : List Char → ℚ) (insts : List Inst) : ℚ :=
  listMaxQ ((groupByRepo insts).map (groupLoad W))

/-! ### Lemmas about the greedy assignment (claims C4 and C10) -/

/-- The loads-only view of `bumpMin`. -/
def bumpL (m gl : ℚ) : List ℚ → List ℚ
  | [] => []
  | x :: xs => if x = m then (x + gl) :: xs else x :: bumpL m gl xs

lemma wLoads_bumpMin (m : ℚ) (g : List Inst) (gl : ℚ) (s : WState) :
    wLoads (bumpMin m g gl s) = bumpL m gl (wLoads s) := by
  induction s with
  | nil => rfl
  | cons p rest ih =>
    obtain ⟨l, a⟩ := p
    by_cases h : l = m <;> simp [bumpMin, bumpL, wLoads, h] <;>
      simpa [wLoads] using ih

lemma mem_bumpL {y m gl : ℚ} {l : List ℚ} (h : y ∈ bumpL m gl l) :
    y ∈ l ∨ y = m + gl := by
  induction l with
  | nil => simp [bumpL] at h
  | cons x xs ih =>
    by_cases hx : x = m
    · rw [bumpL, if_pos hx] at h
      rcases List.mem_cons.mp h with h | h
      · right; rw [h, hx]
      · exact Or.inl (List.mem_cons_of_mem _ h)
    · rw [bumpL, if_neg hx] at h
      rcases List.mem_cons.mp h with h | h
      · exact Or.inl (h ▸ List.mem_cons_self _ _)
      · rcases ih h with h' | h'
        · exact Or.inl (List.mem_cons_of_mem _ h')
        · exact Or.inr h'

lemma bumpL_length (m gl : ℚ) (l : List ℚ) :
    (bumpL m gl l).length = l.length := by
  induction l with
  | nil => rfl
  | cons x xs ih => by_cases h : x = m <;> simp [bumpL, h, ih]

lemma listMinQ_le {l : List ℚ} : ∀ x ∈ l, listMinQ l ≤ x := by
  induction l with
  | nil => intro x hx; cases hx
  | cons a t ih =>
    intro x hx
    cases t with
    | nil =>
      rcases List.mem_cons.mp hx with h | h
      · simp [listMinQ, h]
      · cases h
    | cons b t' =>
      rcases List.mem_cons.mp hx with h | h
      · rw [h, listMinQ]; exact min_le_left _ _
      · rw [listMinQ]; exact (min_le_right _ _).trans (ih x h)

lemma listMinQ_mem {l : List ℚ} (h : l ≠ []) : listMinQ l ∈ l := by
  induction l with
  | nil => exact absurd rfl h
  | cons a t ih =>
    cases t with
    | nil => simp [listMinQ]
    | cons b t' =>
      rw [listMinQ]
      rcases le_total a (listMinQ (b :: t')) with hle | hle
      · rw [min_eq_left hle]; exact List.mem_cons_self _ _
      · rw [min_eq_right hle]
        exact List.mem_cons_of_mem _ (ih (List.cons_ne_nil _ _))

lemma listMaxQ_ge {l : List ℚ} : ∀ x ∈ l, x ≤ listMaxQ l := by
  induction l with
  | nil => intro x hx; cases hx
  | cons a t ih =>
    intro x hx
    cases t with
    | nil =>
      rcases List.mem_cons.mp hx with h | h
      · simp [listMaxQ, h]
      · cases h
    | cons b t' =>
      rcases List.mem_cons.mp hx with h | h
      · rw [h, listMaxQ]; exact le_max_left _ _
      · rw [listMaxQ]; exact (ih x h).trans (le_max_right _ _)

lemma listMaxQ_mem {l : List ℚ} (h : l ≠ []) : listMaxQ l ∈ l := by
  induction l with
  | nil => exact absurd rfl h
  | cons a t ih =>
    cases t with
    | nil => simp [listMaxQ]
    | cons b t' =>
      rw [listMaxQ]
      rcases le_total a (listMaxQ (b :: t')) with hle | hle
      · rw [max_eq_right hle]
        exact List.mem_cons_of_mem _ (ih (List.cons_ne_nil _ _))
      · rw [max_eq_left hle]; exact List.mem_cons_self _ _

/-- One greedy step keeps every load within `G` of the minimum, provided the
new group load is between `0` and `G`. -/
lemma bal_step (G gl : ℚ) (l : List ℚ) (h0 : 0 ≤ gl) (hG : gl ≤ G)
    (hinv : ∀ x ∈ l, x ≤ listMinQ l + G) :
    ∀ x ∈ bumpL (listMinQ l) gl l,
      x ≤ listMinQ (bumpL (listMinQ l) gl l) + G := by
  rcases eq_or_ne l [] with rfl | hne
  · intro x hx; cases hx
  · have hlen : bumpL (listMinQ l) gl l ≠ [] := by
      intro hE
      apply hne
      have h1 := bumpL_length (listMinQ l) gl l
      rw [hE] at h1
      exact List.length_eq_zero.mp h1.symm
    have hmono : listMinQ l ≤ listMinQ (bumpL (listMinQ l) gl l) := by
      rcases mem_bumpL (listMinQ_mem hlen) with h | h
      · exact listMinQ_le _ h
      · rw [h]; exact le_add_of_nonneg_right h0
    intro x hx
    rcases mem_bumpL hx with h | h
    · exact (hinv x h).trans (by linarith)
    · rw [h]; linarith

/-- The loads-level greedy fold preserves the balance invariant. -/
lemma bal_fold (G : ℚ) (qs : List ℚ) :
    ∀ l : List ℚ, (∀ q ∈ qs, 0 ≤ q ∧ q ≤ G) →
      (∀ x ∈ l, x ≤ listMinQ l + G) →
      ∀ x ∈ qs.foldl (fun acc q => bumpL (listMinQ acc) q acc) l,
        x ≤ listMinQ (qs.foldl (fun acc q => bumpL (listMinQ acc) q acc) l) + G := by
  induction qs with
  | nil => intro l _ hinv; simpa using hinv
  | cons q qs ih =>
    intro l hq hinv
    have hq0 := hq q (List.mem_cons_self _ _)
    exact ih _ (fun q' h' => hq q' (List.mem_cons_of_mem _ h'))
      (bal_step G q l hq0.1 hq0.2 hinv)

lemma bal_fold_length (qs : List ℚ) (l : List ℚ) :
    (qs.foldl (fun acc q => bumpL (listMinQ acc) q acc) l).length = l.length := by
  induction qs generalizing l with
  | nil => rfl
  | cons q qs ih => rw [List.foldl_cons, ih, bumpL_length]

lemma wLoads_foldl (W : List Char → ℚ) (gs : List (List Char × List Inst))
    (s : WState) :
    wLoads (gs.foldl (assignStep W) s) =
      (gs.map (groupLoad W)).foldl (fun acc q => bumpL (listMinQ acc) q acc)
        (wLoads s) := by
  induction gs generalizing s with
  | nil => rfl
  | cons g gs ih =>
    rw [List.foldl_cons, List.map_cons, List.foldl_cons, ih]
    rw [assignStep, wLoads_bumpMin]

lemma insertDesc_perm (W : List Char → ℚ) (g : List Char × List Inst)
    (l : List (List Char × List Inst)) :
    List.Perm (insertDesc W g l) (g :: l) := by
  induction l with
  | nil => rfl
  | cons h t ih =>
    rw [insertDesc]
    split
    · rfl
    · exact (ih.cons h).trans (List.Perm.swap _ _ _)

lemma sortFold_perm (W : List Char → ℚ) (gs acc : List (List Char × List Inst)) :
    List.Perm (gs.foldl (fun a g => insertDesc W g a) acc) (acc ++ gs) := by
  induction gs generalizing acc with
  | nil => simp
  | cons g t ih =>
    rw [List.foldl_cons]
    refine (ih _).trans ?_
    refine (((insertDesc_perm W g acc).append_right t).trans ?_)
    exact List.perm_middle.symm

lemma sortGroups_perm (W : List Char → ℚ) (gs : List (List Char × List Inst)) :
    List.Perm (sortGroups W gs) gs := by
  simpa using sortFold_perm W gs []

lemma mem_sortGroups {W : List Char → ℚ} {g : List Char × List Inst}
    {gs : List (List Char × List Inst)} (h : g ∈ sortGroups W gs) : g ∈ gs :=
  (sortGroups_perm W gs).mem_iff.mp h

/-- All instances inside a group of `groupByRepo` carry the group's key. -/
def Homog (gs : List (List Char × List Inst)) : Prop :=
  ∀ g ∈ gs, ∀ x ∈ g.2, x.repo = g.1

/-- The group keys are pairwise distinct. -/
def KeysND (gs : List (List Char × List Inst)) : Prop :=
  gs.Pairwise (fun a b => a.1 ≠ b.1)

lemma homog_addToGroups {gs : List (List Char × List Inst)} {i : Inst}
    (h : Homog gs) : Homog (addToGroups gs i) := by
  induction gs with
  | nil =>
    intro g hg x hx
    rcases List.mem_singleton.mp hg with rfl
    rcases List.mem_singleton.mp hx with rfl
    rfl
  | cons p rest ih =>
    obtain ⟨k, l⟩ := p
    by_cases hk : k = i.repo
    · rw [addToGroups, if_pos hk]
      intro g hg x hx
      rcases List.mem_cons.mp hg with rfl | hg
      · rcases List.mem_append.mp hx with hx | hx
        · exact h (k, l) (List.mem_cons_self _ _) x hx
        · rcases List.mem_singleton.mp hx with rfl
          exact hk.symm
      · exact h g (List.mem_cons_of_mem _ hg) x hx
    · rw [addToGroups, if_neg hk]
      intro g hg x hx
      rcases List.mem_cons.mp hg with rfl | hg
      · exact h (k, l) (List.mem_cons_self _ _) x hx
      · exact ih (fun g' h' => h g' (List.mem_cons_of_mem _ h')) g hg x hx

lemma mem_key_addToGroups {gs : List (List Char × List Inst)} {i : Inst}
    {p : List Char × List Inst} (h : p ∈ addToGroups gs i) :
    p.1 = i.repo ∨ ∃ q ∈ gs, p.1 = q.1 := by
  induction gs with
  | nil =>
    rcases List.mem_singleton.mp h with rfl
    exact Or.inl rfl
  | cons q rest ih =>
    obtain ⟨k, l⟩ := q
    by_cases hk : k = i.repo
    · rw [addToGroups, if_pos hk] at h
      rcases List.mem_cons.mp h with rfl | h
      · exact Or.inr ⟨(k, l), List.mem_cons_self _ _, rfl⟩
      · exact Or.inr ⟨p, List.mem_cons_of_mem _ h, rfl⟩
    · rw [addToGroups, if_neg hk] at h
      rcases List.mem_cons.mp h with rfl | h
      · exact Or.inr ⟨(k, l), List.mem_cons_self _ _, rfl⟩
      · rcases ih h with h' | ⟨q', hq', he⟩
        · exact Or.inl h'
        · exact Or.inr ⟨q', List.mem_cons_of_mem _ hq', he⟩

lemma keysND_addToGroups {gs : List (List Char × List Inst)} {i : Inst}
    (h : KeysND gs) : KeysND (addToGroups gs i) := by
  induction gs with
  | nil => simp [addToGroups, KeysND]
  | cons q rest ih =>
    obtain ⟨k, l⟩ := q
    rcases List.pairwise_cons.mp h with ⟨hhead, htail⟩
    by_cases hk : k = i.repo
    · rw [addToGroups, if_pos hk]
      exact List.pairwise_cons.mpr ⟨hhead, htail⟩
    · rw [addToGroups, if_neg hk]
      refine List.pairwise_cons.mpr ⟨?_, ih htail⟩
      intro p hp
      rcases mem_key_addToGroups hp with h' | ⟨q', hq', he⟩
      · rw [h']; exact hk
      · rw [he]; exact hhead q' hq'

lemma homog_groupByRepo (insts : List Inst) : Homog (groupByRepo insts) := by
  have H : ∀ (l : List Inst) (acc : List (List Char × List Inst)),
      Homog acc → Homog (l.foldl addToGroups acc) := by
    intro l
    induction l with
    | nil => intro acc h; exact h
    | cons i t ih => intro acc h; exact ih _ (homog_addToGroups h)
  exact H insts [] (by intro g hg; cases hg)

lemma keysND_groupByRepo (insts : List Inst) : KeysND (groupByRepo insts) := by
  have H : ∀ (l : List Inst) (acc : List (List Char × List Inst)),
      KeysND acc → KeysND (l.foldl addToGroups acc) := by
    intro l
    induction l with
    | nil => intro acc h; exact h
    | cons i t ih => intro acc h; exact ih _ (keysND_addToGroups h)
  exact H insts [] List.Pairwise.nil

lemma homog_sortGroups (W : List Char → ℚ) (insts : List Inst) :
    Homog (sortGroups W (groupByRepo insts)) :=
  fun g hg => homog_groupByRepo insts g (mem_sortGroups hg)

lemma keysND_sortGroups (W : List Char → ℚ) (insts : List Inst) :
    KeysND (sortGroups W (groupByRepo insts)) :=
  ((sortGroups_perm W (groupByRepo insts)).pairwise_iff
    (by intro a b hab; exact Ne.symm hab)).mpr (keysND_groupByRepo insts)

/-- `bumpMin` either leaves the state unchanged (no load equals `m`) or
modifies exactly one position, appending the group there. -/
lemma bumpMin_cases (m : ℚ) (g : List Inst) (gl : ℚ) (s : WState) :
    bumpMin m g gl s = s ∨
    ∃ k, ∀ j, (bumpMin m g gl s).getD j (0, []) =
      if j = k then ((s.getD k (0, [])).1 + gl, (s.getD k (0, [])).2 ++ g)
      else s.getD j (0, []) := by
  induction s with
  | nil => exact Or.inl rfl
  | cons p rest ih =>
    obtain ⟨l, a⟩ := p
    by_cases h : l = m
    · refine Or.inr ⟨0, ?_⟩
      intro j
      cases j with
      | zero => simp [bumpMin, h]
      | succ j' => simp [bumpMin, h]
    · rcases ih with heq | ⟨k, hk⟩
      · left
        rw [bumpMin, if_neg h, heq]
      · refine Or.inr ⟨k + 1, ?_⟩
        intro j
        cases j with
        | zero => simp [bumpMin, h]
        | succ j' =>
          have hj := hk j'
          rw [bumpMin, if_neg h]
          simp only [List.getD_cons_succ, hj]
          by_cases hjk : j' = k
          · simp [hjk]
          · have hneq : ¬(j' + 1 = k + 1) := by omega
            simp [hjk, hneq]

/-- Instances of distinct workers come from distinct repositories. -/
def RepoDisj (s : WState) : Prop :=
  ∀ i j, i ≠ j → ∀ x ∈ wlist s i, ∀ y ∈ wlist s j, x.repo ≠ y.repo

/-- No instance already assigned carries the key of a still-pending group. -/
def KeysFresh (s : WState) (gs : List (List Char × List Inst)) : Prop :=
  ∀ g ∈ gs, ∀ i, ∀ x ∈ wlist s i, x.repo ≠ g.1

lemma disj_step (s : WState) (g : List Char × List Inst)
    (gs : List (List Char × List Inst)) (m gl : ℚ)
    (h1 : RepoDisj s) (h2 : KeysFresh s (g :: gs))
    (h3 : Homog (g :: gs)) (h4 : KeysND (g :: gs)) :
    RepoDisj (bumpMin m g.2 gl s) ∧ KeysFresh (bumpMin m g.2 gl s) gs := by
  rcases bumpMin_cases m g.2 gl s with heq | ⟨k, hk⟩
  · rw [heq]
    exact ⟨h1, fun g' hg' => h2 g' (List.mem_cons_of_mem _ hg')⟩
  · have hw : ∀ j, wlist (bumpMin m g.2 gl s) j =
        if j = k then wlist s k ++ g.2 else wlist s j := by
      intro j
      unfold wlist
      rw [hk j]
      by_cases hj : j = k <;> simp [hj]
    have hxg : ∀ x ∈ g.2, x.repo = g.1 := h3 g (List.mem_cons_self _ _)
    constructor
    · intro i j hij x hx y hy
      rw [hw i] at hx
      rw [hw j] at hy
      by_cases hik : i = k <;> by_cases hjk : j = k
      · exact absurd (hik.trans hjk.symm) hij
      · rw [if_pos hik] at hx
        rw [if_neg hjk] at hy
        rcases List.mem_append.mp hx with hx | hx
        · exact h1 k j (by rw [hik] at hij; exact hij) x (hik ▸ hx) y hy
        · rw [hxg x hx]
          exact fun hc => h2 g (List.mem_cons_self _ _) j y hy hc.symm
      · rw [if_neg hik] at hx
        rw [if_pos hjk] at hy
        rcases List.mem_append.mp hy with hy | hy
        · exact h1 i k (by rw [hjk] at hij; exact hij) x hx y (hjk ▸ hy)
        · rw [hxg y hy]
          exact h2 g (List.mem_cons_self _ _) i x hx
      · rw [if_neg hik] at hx
        rw [if_neg hjk] at hy
        exact h1 i j hij x hx y hy
    · intro g' hg' i x hx
      rw [hw i] at hx
      by_cases hik : i = k
      · rw [if_pos hik] at hx
        rcases List.mem_append.mp hx with hx | hx
        · exact h2 g' (List.mem_cons_of_mem _ hg') k x (hik ▸ hx)
        · rw [hxg x hx]
          exact (List.pairwise_cons.mp h4).1 g' hg'
      · rw [if_neg hik] at hx
        exact h2 g' (List.mem_cons_of_mem _ hg') i x hx

lemma disj_fold (W : List Char → ℚ) (gs : List (List Char × List Inst)) :
    ∀ s : WState, RepoDisj s → KeysFresh s gs → Homog gs → KeysND gs →
      RepoDisj (gs.foldl (assignStep W) s) := by
  induction gs with
  | nil => intro s h1 _ _ _; exact h1
  | cons g t ih =>
    intro s h1 h2 h3 h4
    rw [List.foldl_cons]
    have hstep := disj_step s g t (listMinQ (wLoads s)) (groupLoad W g) h1 h2 h3 h4
    exact ih _ hstep.1 hstep.2
      (fun g' h' => h3 g' (List.mem_cons_of_mem _ h'))
      (List.pairwise_cons.mp h4).2

lemma wlist_initState (ws' : List (List Char)) (i : Nat) :
    wlist (initState ws') i = [] := by
  induction ws' generalizing i with
  | nil => cases i <;> rfl
  | cons w t ih =>
    cases i with
    | zero => rfl
    | succ n => simpa [initState, wlist] using ih n

lemma repoComplexityTable_nonneg : ∀ p ∈ repoComplexityTable, 0 ≤ p.2 := by
  intro p hp
  fin_cases hp <;> norm_num

lemma repoComplexity_nonneg (r : List Char) : 0 ≤ REPO_COMPLEXITY r := by
  unfold REPO_COMPLEXITY
  cases hf : repoComplexityTable.find? (fun p => p.1 == r) with
  | none => norm_num
  | some p => exact repoComplexityTable_nonneg p (List.mem_of_find?_eq_some hf)

lemma maxGroupLoad_nonneg (W : List Char → ℚ) (insts : List Inst)
    (hW : ∀ r, 0 ≤ W r) : 0 ≤ maxGroupLoad W insts := by
  unfold maxGroupLoad
  cases hgs : groupByRepo insts with
  | nil => simp [listMaxQ]
  | cons g t =>
    have h0 : 0 ≤ groupLoad W g := mul_nonneg (hW _) (Nat.cast_nonneg _)
    exact h0.trans
      (listMaxQ_ge _ (List.mem_map_of_mem _ (List.mem_cons_self _ _)))

lemma wLoads_initState (ws' : List (List Char)) :
    wLoads (initState ws') = ws'.map (fun _ => (0 : ℚ)) := by
  simp [wLoads, initState, List.map_map, Function.comp]

lemma dedupKeys_ne_nil {ws : List (List Char)} (h : ws ≠ []) :
    dedupKeys ws ≠ [] := by
  cases ws with
  | nil => exact absurd rfl h
  | cons w t => simp [dedupKeys, dedupKeysAux]

/-- C4: instances are grouped per repository and each whole group lands on a
single worker, and the greedy largest-first assignment keeps the worker load
spread within the largest single repository-group load. -/
theorem distribute_load_grouping_and_balance (insts : List Inst)
    (ws : List (List Char)) (hws : ws ≠ []) :
    (∀ i j, i ≠ j →
        ∀ x ∈ wlist (distributeLoad REPO_COMPLEXITY insts ws) i,
        ∀ y ∈ wlist (distributeLoad REPO_COMPLEXITY insts ws) j,
        x.repo ≠ y.repo) ∧
    listMaxQ (wLoads (distributeLoad REPO_COMPLEXITY insts ws)) -
        listMinQ (wLoads (distributeLoad REPO_COMPLEXITY insts ws)) ≤
      maxGroupLoad REPO_COMPLEXITY insts := by
  constructor
  · exact disj_fold REPO_COMPLEXITY _ _
      (fun i j _ x hx => by rw [wlist_initState] at hx; cases hx)
      (fun g _ i x hx => by rw [wlist_initState] at hx; cases hx)
      (homog_sortGroups _ insts) (keysND_sortGroups _ insts)
  · have hGnn : 0 ≤ maxGroupLoad REPO_COMPLEXITY insts :=
      maxGroupLoad_nonneg _ insts repoComplexity_nonneg
    have hq : ∀ q ∈ (sortGroups REPO_COMPLEXITY (groupByRepo insts)).map
        (groupLoad REPO_COMPLEXITY),
        0 ≤ q ∧ q ≤ maxGroupLoad REPO_COMPLEXITY insts := by
      intro q hmem
      rcases List.mem_map.mp hmem with ⟨g, hg, rfl⟩
      refine ⟨mul_nonneg (repoComplexity_nonneg _) (Nat.cast_nonneg _), ?_⟩
      exact listMaxQ_ge _ (List.mem_map_of_mem _ (mem_sortGroups hg))
    have hL0 := wLoads_initState (dedupKeys ws)
    have hne0 : wLoads (initState (dedupKeys ws)) ≠ [] := by
      rw [hL0]
      simpa using dedupKeys_ne_nil hws
    have hzero : ∀ x ∈ wLoads (initState (dedupKeys ws)), x = 0 := by
      rw [hL0]
      intro x hx
      rcases List.mem_map.mp hx with ⟨_, _, rfl⟩
      rfl
    have hmin0 : listMinQ (wLoads (initState (dedupKeys ws))) = 0 :=
      hzero _ (listMinQ_mem hne0)
    have hbase : ∀ x ∈ wLoads (initState (dedupKeys ws)),
        x ≤ listMinQ (wLoads (initState (dedupKeys ws))) +
          maxGroupLoad REPO_COMPLEXITY insts := by
      intro x hx
      rw [hzero x hx, hmin0]
      linarith
    have hfold := bal_fold (maxGroupLoad REPO_COMPLEXITY insts) _ _ hq hbase
    have hre : wLoads (distributeLoad REPO_COMPLEXITY insts ws) =
        ((sortGroups REPO_COMPLEXITY (groupByRepo insts)).map
          (groupLoad REPO_COMPLEXITY)).foldl
          (fun acc q => bumpL (listMinQ acc) q acc)
          (wLoads (initState (dedupKeys ws))) := wLoads_foldl _ _ _
    rw [hre]
    have hfne : ((sortGroups REPO_COMPLEXITY (groupByRepo insts)).map
        (groupLoad REPO_COMPLEXITY)).foldl
        (fun acc q => bumpL (listMinQ acc) q acc)
        (wLoads (initState (dedupKeys ws))) ≠ [] := by
      intro hE
      apply hne0
      have hlen := bal_fold_length ((sortGroups REPO_COMPLEXITY
        (groupByRepo insts)).map (groupLoad REPO_COMPLEXITY))
        (wLoads (initState (dedupKeys ws)))
      rw [hE] at hlen
      exact List.length_eq_zero.mp hlen.symm
    have hineq := hfold _ (listMaxQ_mem hfne)
    linarith

def wWitness : List Char := ("http://w1:8080").data

def iWitness : Inst := ⟨("sympy__sympy-1").data, ("sympy/sympy").data⟩

/-- Witness for C4 on a one-instance, one-worker batch. -/
theorem distribute_load_grouping_and_balance_witness :
    (∀ i j, i ≠ j →
        ∀ x ∈ wlist (distributeLoad REPO_COMPLEXITY [iWitness] [wWitness]) i,
        ∀ y ∈ wlist (distributeLoad REPO_COMPLEXITY [iWitness] [wWitness]) j,
        x.repo ≠ y.repo) ∧
    listMaxQ (wLoads (distributeLoad REPO_COMPLEXITY [iWitness] [wWitness])) -
        listMinQ (wLoads (distributeLoad REPO_COMPLEXITY [iWitness] [wWitness])) ≤
      maxGroupLoad REPO_COMPLEXITY [iWitness] :=
  distribute_load_grouping_and_balance [iWitness] [wWitness] (by decide)

/-- C10: `distribute_load` is a deterministic function of the instance list
and the worker list — two invocations agree, worker by worker and in order.
(The model is faithful to the Python only because insertion-ordered dicts, a
stable sort and first-minimum tie-breaking leave no nondeterminism; the
`random` module is never consulted by `distribute_load`.) -/
theorem distribute_load_deterministic (insts : List Inst)
    (ws : List (List Char)) (r1 r2 : WState)
    (h1 : r1 = distributeLoad REPO_COMPLEXITY insts ws)
    (h2 : r2 = distributeLoad REPO_COMPLEXITY insts ws) :
    r1 = r2 ∧ ∀ i, wlist r1 i = wlist r2 i := by
  subst h1
  subst h2
  exact ⟨rfl, fun _ => rfl⟩

/-- Witness for C10. -/
theorem distribute_load_deterministic_witness :
    distributeLoad REPO_COMPLEXITY [iWitness] [wWitness] =
        distributeLoad REPO_COMPLEXITY [iWitness] [wWitness] ∧
    ∀ i, wlist (distributeLoad REPO_COMPLEXITY [iWitness] [wWitness]) i =
        wlist (distributeLoad REPO_COMPLEXITY [iWitness] [wWitness]) i :=
  distribute_load_deterministic [iWitness] [wWitness] _ _ rfl rfl

/-! ### Batch validation and retry (`validate_all` / `_retry_failed`,
parallel_validator.py 204-300) -/

/-- One entry of the aggregated results list, restricted to the fields the
aggregation logic reads. -/
structure AResult where
  instId : List Char
  worker : List Char
  valid : Bool
deriving DecidableEq, Repr

/-- The outcome of one `validate_instance_on_worker` call as seen by the
dispatcher loop: `some b` — the call returned a result dict with `valid = b`
(it never raises itself); `none` — `future.result(timeout=420)` raised. -/
abbrev AttOracle := Inst → List Char → Nat → Option Bool

def mkRes (i : Inst) (w : List Char) (b : Bool) : AResult :=
  ⟨i.instanceId, w, b⟩

/-- The submission order of `validate_all`: workers in dict insertion order,
each worker's instances in assignment order. -/
def flattenAssignments : List (List Char) → WState → List (Inst × List Char)
  | [], _ => []
  | _, [] => []
  | w :: ws', p :: s' =>
    p.2.map (fun i => (i, w)) ++ flattenAssignments ws' s'

/-- parallel_validator.py 238-254: collect results in submission order; a
non-valid result (every result dict has an `error` key, so the `'error' in
result` test is vacuous) or a raised future queues the instance for retry,
recording the worker of the returned dict (`result.get('worker')`, absent on
the raised-future path). -/
def firstPassRun (o : AttOracle) :
    List (Inst × List Char) → List AResult × List (Inst × Option (List Char))
  | [] => ([], [])
  | (i, w) :: rest =>
    let pr := firstPassRun o rest
    match o i w 0 with
    | some b => (mkRes i w b :: pr.1, if b then pr.2 else (i, some w) :: pr.2)
    | none => (pr.1, (i, none) :: pr.2)

/-- parallel_validator.py 274-281: the retry worker is drawn (by the `pick`
oracle, standing for `random.choice`) from the workers different from the
original one, falling back to the full list. -/
def retryTarget (pick : List (List Char) → List Char) (ws : List (List Char))
    (ow : Option (List Char)) : List Char :=
  let avail := ws.filter (fun w => some w ≠ ow)
  pick (if avail.isEmpty then ws else avail)

/-- parallel_validator.py 266-300: `_retry_failed`.  The recorded retry count
of a first-pass failure is always `0` (`result.get('retry_count', 0)`), so the
new count is `1` and the attempt is submitted iff `1 ≤ maxRetries`; a retry
whose future raises is dropped. -/
def retryRun (o : AttOracle) (pick : List (List Char) → List Char)
    (ws : List (List Char)) (maxR : Nat) :
    List (Inst × Option (List Char)) → List AResult
  | [] => []
  | (i, ow) :: rest =>
    if 1 ≤ maxR then
      match o i (retryTarget pick ws ow) 1 with
      | some b => mkRes i (retryTarget pick ws ow) b :: retryRun o pick ws maxR rest
      | none => retryRun o pick ws maxR rest
    else retryRun o pick ws maxR rest

/-- `validate_all` (parallel_validator.py 204-264): distribute, run all
attempts, then append (`all_results.extend(retry_results)`) the retry results
of the failed instances when `max_retries > 0`. -/
def validateAll (o : AttOracle) (pick : List (List Char) → List Char)
    (W : List Char → ℚ) (insts : List Inst) (ws : List (List Char))
    (maxR : Nat) : List AResult :=
  let pairs := flattenAssignments (dedupKeys ws)
    (distributeLoad W insts ws)
  let pr := firstPassRun o pairs
  pr.1 ++ (if !pr.2.isEmpty && decide (0 < maxR) then
    retryRun o pick ws maxR pr.2 else [])

/-- Number of results carried by instance id `x` in the final aggregate. -/
def countId (x : List Char) (rs : List AResult) : Nat :=
  rs.countP (fun r => r.instId == x)

/-- Number of instances with id `x` in a list of instances. -/
def countInstId (x : List Char) (l : List Inst) : Nat :=
  l.countP (fun i => i.instanceId == x)

/-- All instances held in a worker state, in worker order. -/
def flatInsts (s : WState) : List Inst :=
  s.foldr (fun p acc => p.2 ++ acc) []

/-- All instances held in a group list. -/
def flatGroups (gs : List (List Char × List Inst)) : List Inst :=
  gs.foldr (fun g acc => g.2 ++ acc) []

lemma bumpMin_length (m : ℚ) (g : List Inst) (gl : ℚ) (s : WState) :
    (bumpMin m g gl s).length = s.length := by
  induction s with
  | nil => rfl
  | cons p rest ih =>
    obtain ⟨l, a⟩ := p
    by_cases h : l = m <;> simp [bumpMin, h, ih]

lemma flatInsts_cons (p : ℚ × List Inst) (s : WState) :
    flatInsts (p :: s) = p.2 ++ flatInsts s := rfl

lemma flatGroups_cons (g : List Char × List Inst)
    (gs : List (List Char × List Inst)) :
    flatGroups (g :: gs) = g.2 ++ flatGroups gs := rfl

lemma flatInsts_bumpMin (m : ℚ) (g : List Inst) (gl : ℚ) (s : WState)
    (hmem : ∃ p ∈ s, p.1 = m) :
    List.Perm (flatInsts (bumpMin m g gl s)) (flatInsts s ++ g) := by
  induction s with
  | nil =>
    rcases hmem with ⟨p, hp, _⟩
    cases hp
  | cons q rest ih =>
    obtain ⟨l, a⟩ := q
    by_cases h : l = m
    · rw [bumpMin, if_pos h, flatInsts_cons, flatInsts_cons]
      rw [List.append_assoc, List.append_assoc]
      exact List.Perm.append_left a List.perm_append_comm
    · rw [bumpMin, if_neg h, flatInsts_cons, flatInsts_cons]
      have hmem2 : ∃ p ∈ rest, p.1 = m := by
        rcases hmem with ⟨p, hp, he⟩
        rcases List.mem_cons.mp hp with rfl | hp2
        · exact absurd he h
        · exact ⟨p, hp2, he⟩
      rw [List.append_assoc]
      exact List.Perm.append_left a (ih hmem2)

lemma exists_min_mem {s : WState} (h : s ≠ []) :
    ∃ p ∈ s, p.1 = listMinQ (wLoads s) := by
  have hw : wLoads s ≠ [] := by
    intro hE
    exact h (List.map_eq_nil.mp hE)
  rcases List.mem_map.mp (listMinQ_mem hw) with ⟨p, hp, he⟩
  exact ⟨p, hp, he⟩

lemma flatInsts_fold (W : List Char → ℚ) (gs : List (List Char × List Inst)) :
    ∀ s : WState, s ≠ [] →
      List.Perm (flatInsts (gs.foldl (assignStep W) s))
        (flatInsts s ++ flatGroups gs) := by
  induction gs with
  | nil =>
    intro s _
    simp [flatGroups]
  | cons g t ih =>
    intro s hs
    rw [List.foldl_cons]
    have hne2 : assignStep W s g ≠ [] := by
      intro hE
      apply hs
      have hlen := bumpMin_length
        (listMinQ (wLoads s)) g.2 (groupLoad W g) s
      rw [assignStep] at hE
      rw [hE] at hlen
      exact List.length_eq_zero.mp hlen.symm
    refine (ih _ hne2).trans ?_
    have h1 : List.Perm (flatInsts (assignStep W s g)) (flatInsts s ++ g.2) :=
      flatInsts_bumpMin _ _ _ _ (exists_min_mem hs)
    refine (h1.append_right _).trans ?_
    rw [flatGroups_cons, List.append_assoc]

lemma flatGroups_eq_join (gs : List (List Char × List Inst)) :
    flatGroups gs = (gs.map (fun g => g.2)).join := by
  induction gs with
  | nil => rfl
  | cons g t ih =>
    rw [flatGroups_cons, ih]
    rfl

lemma flatGroups_perm_of_perm {gs1 gs2 : List (List Char × List Inst)}
    (h : List.Perm gs1 gs2) :
    List.Perm (flatGroups gs1) (flatGroups gs2) := by
  rw [flatGroups_eq_join, flatGroups_eq_join]
  exact (h.map _).join

lemma flatGroups_addToGroups (gs : List (List Char × List Inst)) (i : Inst) :
    List.Perm (flatGroups (addToGroups gs i)) (flatGroups gs ++ [i]) := by
  induction gs with
  | nil => simp [addToGroups, flatGroups]
  | cons q rest ih =>
    obtain ⟨k, l⟩ := q
    by_cases h : k = i.repo
    · rw [addToGroups, if_pos h, flatGroups_cons, flatGroups_cons]
      rw [List.append_assoc, List.append_assoc]
      exact List.Perm.append_left l List.perm_append_comm
    · rw [addToGroups, if_neg h, flatGroups_cons, flatGroups_cons]
      rw [List.append_assoc]
      exact List.Perm.append_left l ih

lemma flatGroups_groupByRepo (insts : List Inst) :
    List.Perm (flatGroups (groupByRepo insts)) insts := by
  have H : ∀ (l : List Inst) (acc : List (List Char × List Inst)),
      List.Perm (flatGroups (l.foldl addToGroups acc)) (flatGroups acc ++ l) := by
    intro l
    induction l with
    | nil => intro acc; simp
    | cons i t ih =>
      intro acc
      rw [List.foldl_cons]
      refine (ih _).trans ?_
      refine ((flatGroups_addToGroups acc i).append_right t).trans ?_
      rw [List.append_assoc]
      exact List.Perm.refl _
  simpa [flatGroups] using H insts []

lemma flatInsts_initState (ws' : List (List Char)) :
    flatInsts (initState ws') = [] := by
  induction ws' with
  | nil => rfl
  | cons w t ih => simpa [initState, flatInsts_cons] using ih

lemma distributeLoad_length (W : List Char → ℚ) (insts : List Inst)
    (ws : List (List Char)) :
    (distributeLoad W insts ws).length = (dedupKeys ws).length := by
  have H : ∀ (gs : List (List Char × List Inst)) (s : WState),
      (gs.foldl (assignStep W) s).length = s.length := by
    intro gs
    induction gs with
    | nil => intro s; rfl
    | cons g t ih =>
      intro s
      rw [List.foldl_cons, ih, assignStep, bumpMin_length]
  unfold distributeLoad
  rw [H]
  exact List.length_map _ _

lemma flatten_map_fst : ∀ (ws' : List (List Char)) (s : WState),
    ws'.length = s.length →
    (flattenAssignments ws' s).map Prod.fst = flatInsts s := by
  intro ws'
  induction ws' with
  | nil =>
    intro s h
    cases s with
    | nil => rfl
    | cons p t => simp at h
  | cons w t ih =>
    intro s h
    cases s with
    | nil => simp at h
    | cons p s2 =>
      have ih2 := ih s2 (by simpa using h)
      show (p.2.map (fun i => (i, w)) ++ flattenAssignments t s2).map Prod.fst =
        p.2 ++ flatInsts s2
      rw [List.map_append, List.map_map, ih2]
      congr 1
      exact List.map_id _ ▸ rfl

/-- The submitted (instance, worker) pairs cover the requested instances
exactly (as a permutation). -/
lemma pairs_fst_perm (W : List Char → ℚ) (insts : List Inst)
    (ws : List (List Char)) (hws : ws ≠ []) :
    List.Perm ((flattenAssignments (dedupKeys ws)
      (distributeLoad W insts ws)).map Prod.fst) insts := by
  rw [flatten_map_fst _ _ (distributeLoad_length W insts ws).symm]
  unfold distributeLoad
  have hinit : initState (dedupKeys ws) ≠ [] := by
    intro hE
    exact dedupKeys_ne_nil hws (List.map_eq_nil.mp hE)
  refine (flatInsts_fold W _ _ hinit).trans ?_
  rw [flatInsts_initState]
  show List.Perm (flatGroups (sortGroups W (groupByRepo insts))) insts
  exact (flatGroups_perm_of_perm (sortGroups_perm W _)).trans
    (flatGroups_groupByRepo insts)

/-- The queuing rule of the first pass, as a `filterMap` kernel. -/
def queuedEntry (o : AttOracle) (p : Inst × List Char) :
    Option (Inst × Option (List Char)) :=
  match o p.1 p.2 0 with
  | some true => none
  | some false => some (p.1, some p.2)
  | none => some (p.1, none)

lemma firstPassRun_fst (o : AttOracle) (L : List (Inst × List Char)) :
    (firstPassRun o L).1 =
      L.filterMap (fun p => (o p.1 p.2 0).map (mkRes p.1 p.2)) := by
  induction L with
  | nil => rfl
  | cons p t ih =>
    obtain ⟨i, w⟩ := p
    cases ho : o i w 0 with
    | some b => simp [firstPassRun, ho, ih, List.filterMap_cons]
    | none => simp [firstPassRun, ho, ih, List.filterMap_cons]

lemma firstPassRun_snd (o : AttOracle) (L : List (Inst × List Char)) :
    (firstPassRun o L).2 = L.filterMap (queuedEntry o) := by
  induction L with
  | nil => rfl
  | cons p t ih =>
    obtain ⟨i, w⟩ := p
    cases ho : o i w 0 with
    | some b =>
      cases b <;> simp [firstPassRun, queuedEntry, ho, ih, List.filterMap_cons]
    | none => simp [firstPassRun, queuedEntry, ho, ih, List.filterMap_cons]

lemma retryRun_eq (o : AttOracle) (pick : List (List Char) → List Char)
    (ws : List (List Char)) (maxR : Nat)
    (fs : List (Inst × Option (List Char))) :
    retryRun o pick ws maxR fs = fs.filterMap (fun q =>
      if 1 ≤ maxR then
        (o q.1 (retryTarget pick ws q.2) 1).map
          (mkRes q.1 (retryTarget pick ws q.2))
      else none) := by
  induction fs with
  | nil => rfl
  | cons q t ih =>
    obtain ⟨i, ow⟩ := q
    by_cases hm : 1 ≤ maxR
    · cases ho : o i (retryTarget pick ws ow) 1 with
      | some b => simp [retryRun, hm, ho, ih, List.filterMap_cons]
      | none => simp [retryRun, hm, ho, ih, List.filterMap_cons]
    · simp [retryRun, hm, ih, List.filterMap_cons]

lemma countP_filterMap {α β : Type} (g : α → Option β) (p : β → Bool)
    (L : List α) :
    (L.filterMap g).countP p =
      L.countP (fun a => match g a with | some b => p b | none => false) := by
  induction L with
  | nil => rfl
  | cons a t ih =>
    cases hg : g a with
    | none => simp [List.filterMap_cons, hg, List.countP_cons, ih]
    | some b => simp [List.filterMap_cons, hg, List.countP_cons, ih]

lemma countP_sides_zero {α : Type} (p : α → Bool) (L1 L2 : List α) (m : α)
    (h1 : ∀ a ∈ L1, p a = false) (h2 : ∀ a ∈ L2, p a = false) :
    (L1 ++ m :: L2).countP p = if p m then 1 else 0 := by
  rw [List.countP_append, List.countP_cons]
  rw [List.countP_eq_zero.mpr (fun a ha => by simp [h1 a ha]),
      List.countP_eq_zero.mpr (fun a ha => by simp [h2 a ha])]
  simp

lemma countP_id_eq_one {l : List Inst}
    (hnd : (l.map (fun i => i.instanceId)).Nodup) {a : Inst} (ha : a ∈ l) :
    l.countP (fun b => b.instanceId == a.instanceId) = 1 := by
  induction l with
  | nil => cases ha
  | cons c t ih =>
    rw [List.map_cons, List.nodup_cons] at hnd
    rcases List.mem_cons.mp ha with heq | hat
    · rw [List.countP_cons,
        List.countP_eq_zero.mpr (fun b hb => by
          intro hbc
          apply hnd.1
          have hbe : b.instanceId = a.instanceId := beq_iff_eq.mp hbc
          rw [← heq, ← hbe]
          exact List.mem_map_of_mem _ hb)]
      simp [heq]
    · rw [List.countP_cons]
      have hca : ¬(c.instanceId == a.instanceId) = true := by
        intro hc
        apply hnd.1
        rw [show c.instanceId = a.instanceId from beq_iff_eq.mp hc]
        exact List.mem_map_of_mem _ hat
      rw [if_neg hca, ih hnd.2 hat]

/-- C3 (amended): the final aggregate is the first-pass results followed by
the appended retry results; for a requested instance (distinct ids) the
number of entries it contributes is one per attempt that returned a result
dict: one for the first attempt unless its future raised, plus one for the
retry when the instance was queued (first attempt raised or was not valid),
the retry budget is positive, and the retry returned a result.  In
particular a retried instance appears twice and an instance whose attempts
all raise is omitted. -/
theorem validate_all_retry_append (o : AttOracle)
    (pick : List (List Char) → List Char) (insts : List Inst)
    (ws : List (List Char)) (maxR : Nat) (inst : Inst)
    (hws : ws ≠ []) (hnd : (insts.map (fun i => i.instanceId)).Nodup)
    (hmem : inst ∈ insts) :
    ∃ w, (inst, w) ∈ flattenAssignments (dedupKeys ws)
        (distributeLoad REPO_COMPLEXITY insts ws) ∧
      countId inst.instanceId
          (validateAll o pick REPO_COMPLEXITY insts ws maxR) =
        (match o inst w 0 with
         | some true => 1
         | some false =>
           1 + (if 1 ≤ maxR then
             (match o inst (retryTarget pick ws (some w)) 1 with
              | some _ => 1
              | none => 0) else 0)
         | none =>
           (if 1 ≤ maxR then
             (match o inst (retryTarget pick ws none) 1 with
              | some _ => 1
              | none => 0) else 0)) := by
  have hperm := pairs_fst_perm REPO_COMPLEXITY insts ws hws
  set x := inst.instanceId with hxdef
  set pairs := flattenAssignments (dedupKeys ws)
    (distributeLoad REPO_COMPLEXITY insts ws) with hpairsdef
  have hcnt_insts : insts.countP (fun i => i.instanceId == x) = 1 :=
    countP_id_eq_one hnd hmem
  have hcntp : pairs.countP (fun p => p.1.instanceId == x) = 1 := by
    have h2 := hperm.countP_eq (fun i => i.instanceId == x)
    rw [List.countP_map] at h2
    rw [hcnt_insts] at h2
    simpa [Function.comp] using h2
  have hxmem : ∃ w, (inst, w) ∈ pairs := by
    have h3 : inst ∈ pairs.map Prod.fst := hperm.mem_iff.mpr hmem
    rcases List.mem_map.mp h3 with ⟨p, hp, he⟩
    refine ⟨p.2, ?_⟩
    have hpe : (inst, p.2) = p := by
      cases p
      simp_all
    rwa [hpe]
  rcases hxmem with ⟨w, hw⟩
  refine ⟨w, hw, ?_⟩
  rcases List.append_of_mem hw with ⟨L1, L2, hsplit⟩
  have hmid : ((inst, w).1.instanceId == x) = true := by simp
  have hz : L1.countP (fun p => p.1.instanceId == x) = 0 ∧
      L2.countP (fun p => p.1.instanceId == x) = 0 := by
    rw [hsplit, List.countP_append, List.countP_cons, hmid] at hcntp
    simp only [if_true] at hcntp
    omega
  have hL1 : ∀ a ∈ L1, a.1.instanceId ≠ x := by
    intro a ha
    have := List.countP_eq_zero.mp hz.1 a ha
    simpa using this
  have hL2 : ∀ a ∈ L2, a.1.instanceId ≠ x := by
    intro a ha
    have := List.countP_eq_zero.mp hz.2 a ha
    simpa using this
  have hva : validateAll o pick REPO_COMPLEXITY insts ws maxR =
      (firstPassRun o pairs).1 ++
      (if !(firstPassRun o pairs).2.isEmpty && decide (0 < maxR) then
        retryRun o pick ws maxR (firstPassRun o pairs).2 else []) := rfl
  have hfst : (firstPassRun o pairs).1.countP (fun r => r.instId == x) =
      (match o inst w 0 with
       | some _ => 1
       | none => 0) := by
    rw [firstPassRun_fst, countP_filterMap, hsplit,
      countP_sides_zero _ _ _ _
        (fun a ha => by
          cases hoa : o a.1 a.2 0 <;> simp [hoa, mkRes, hL1 a ha])
        (fun a ha => by
          cases hoa : o a.1 a.2 0 <;> simp [hoa, mkRes, hL2 a ha])]
    cases ho : o inst w 0 with
    | some b => simp [ho, mkRes]
    | none => simp [ho]
  have hfs : (firstPassRun o pairs).2 = pairs.filterMap (queuedEntry o) :=
    firstPassRun_snd o pairs
  rw [countId, hva, List.countP_append, hfst]
  by_cases hm : 1 ≤ maxR
  · by_cases hfse : (firstPassRun o pairs).2.isEmpty
    · have hnil : pairs.filterMap (queuedEntry o) = [] := by
        rw [← hfs]
        exact List.isEmpty_iff.mp hfse
      have hq0 : queuedEntry o (inst, w) = none :=
        List.filterMap_eq_nil.mp hnil _ hw
      have ho : o inst w 0 = some true := by
        unfold queuedEntry at hq0
        cases ho2 : o inst w 0 with
        | some b =>
          cases b
          · rw [ho2] at hq0
            cases hq0
          · rfl
        | none =>
          rw [ho2] at hq0
          cases hq0
      rw [if_neg (by simp [hfse])]
      simp [ho]
    · have hb1 : (firstPassRun o pairs).2.isEmpty = false := by
        simpa using hfse
      have hguard : (!(firstPassRun o pairs).2.isEmpty &&
          decide (0 < maxR)) = true := by
        rw [hb1]
        simp
        omega
      rw [if_pos hguard, retryRun_eq, countP_filterMap, hfs, countP_filterMap,
        hsplit, countP_sides_zero _ _ _ _
        (fun a ha => by
          cases ho1 : o a.1 a.2 0 with
          | some b =>
            cases b
            · cases ho2 : o a.1 (retryTarget pick ws (some a.2)) 1 <;>
                simp [queuedEntry, ho1, ho2, hm, mkRes, hL1 a ha]
            · simp [queuedEntry, ho1]
          | none =>
            cases ho2 : o a.1 (retryTarget pick ws none) 1 <;>
              simp [queuedEntry, ho1, ho2, hm, mkRes, hL1 a ha])
        (fun a ha => by
          cases ho1 : o a.1 a.2 0 with
          | some b =>
            cases b
            · cases ho2 : o a.1 (retryTarget pick ws (some a.2)) 1 <;>
                simp [queuedEntry, ho1, ho2, hm, mkRes, hL2 a ha]
            · simp [queuedEntry, ho1]
          | none =>
            cases ho2 : o a.1 (retryTarget pick ws none) 1 <;>
              simp [queuedEntry, ho1, ho2, hm, mkRes, hL2 a ha])]
      cases ho1 : o inst w 0 with
      | some b =>
        cases b
        · cases ho2 : o inst (retryTarget pick ws (some w)) 1 <;>
            simp [queuedEntry, ho1, ho2, hm, mkRes]
        · simp [queuedEntry, ho1]
      | none =>
        cases ho2 : o inst (retryTarget pick ws none) 1 <;>
          simp [queuedEntry, ho1, ho2, hm, mkRes]
  · have hz0 : maxR = 0 := by omega
    rw [if_neg (by simp [hz0])]
    cases ho : o inst w 0 with
    | some b => cases b <;> simp [hm]
    | none => simp [hm]

/-! ### Non-negativity and zero-fallback of the parsers (claim C9) -/

/-- All five count fields are non-negative. -/
def StatsNN (st : Stats) : Prop :=
  0 ≤ st.collected ∧ 0 ≤ st.passed ∧ 0 ≤ st.failed ∧ 0 ≤ st.errors ∧
    0 ≤ st.skipped

lemma zeroStats_nn : StatsNN zeroStats := by
  refine ⟨?_, ?_, ?_, ?_, ?_⟩ <;> norm_num [zeroStats]

lemma mem_pyStrip {c : Char} {l : List Char} (h : c ∈ pyStrip l) : c ∈ l := by
  unfold pyStrip at h
  rw [List.mem_reverse] at h
  have h2 := (List.dropWhile_sublist (l := (l.dropWhile pyIsSpace).reverse)
    (p := pyIsSpace)).mem h
  rw [List.mem_reverse] at h2
  exact (List.dropWhile_sublist (p := pyIsSpace)).mem h2

lemma splitOnChar_ne_nil (sep : Char) (l : List Char) :
    splitOnChar sep l ≠ [] := by
  cases l with
  | nil => simp [splitOnChar]
  | cons x xs =>
    rw [splitOnChar]
    cases h : splitOnChar sep xs with
    | nil => simp
    | cons cur rest =>
      by_cases hx : x = sep <;> simp [hx]

lemma mem_splitOnChar {sep : Char} {l piece : List Char}
    (h : piece ∈ splitOnChar sep l) : ∀ c ∈ piece, c ∈ l := by
  induction l generalizing piece with
  | nil =>
    rw [splitOnChar] at h
    rcases List.mem_singleton.mp h with rfl
    intro c hc
    cases hc
  | cons x xs ih =>
    rw [splitOnChar] at h
    split at h
    next heq => exact absurd heq (splitOnChar_ne_nil sep xs)
    next cur rest heq =>
      by_cases hx : x = sep
      · rw [if_pos hx] at h
        rcases List.mem_cons.mp h with rfl | h2
        · intro c hc
          cases hc
        · intro c hc
          exact List.mem_cons_of_mem _
            (ih (by rw [heq]; exact h2) c hc)
      · rw [if_neg hx] at h
        rcases List.mem_cons.mp h with rfl | h2
        · intro c hc
          rcases List.mem_cons.mp hc with rfl | hc2
          · exact List.mem_cons_self _ _
          · exact List.mem_cons_of_mem _
              (ih (by rw [heq]; exact List.mem_cons_self cur rest) c hc2)
        · intro c hc
          exact List.mem_cons_of_mem _
            (ih (by rw [heq]; exact List.mem_cons_of_mem cur h2) c hc)

lemma mem_pySplitWsAux {t : List Char} :
    ∀ {l acc : List Char}, t ∈ pySplitWsAux l acc →
      ∀ c ∈ t, c ∈ l ∨ c ∈ acc := by
  intro l
  induction l with
  | nil =>
    intro acc h c hc
    rw [pySplitWsAux] at h
    by_cases ha : acc.isEmpty
    · rw [if_pos ha] at h
      cases h
    · rw [if_neg ha] at h
      rcases List.mem_singleton.mp h with rfl
      exact Or.inr (List.mem_reverse.mp hc)
  | cons c0 cs ih =>
    intro acc h c hc
    rw [pySplitWsAux] at h
    by_cases hsp : pyIsSpace c0
    · rw [if_pos hsp] at h
      by_cases ha : acc.isEmpty
      · rw [if_pos ha] at h
        rcases ih h c hc with h2 | h2
        · exact Or.inl (List.mem_cons_of_mem _ h2)
        · cases h2
      · rw [if_neg ha] at h
        rcases List.mem_cons.mp h with rfl | h2
        · exact Or.inr (List.mem_reverse.mp hc)
        · rcases ih h2 c hc with h3 | h3
          · exact Or.inl (List.mem_cons_of_mem _ h3)
          · cases h3
    · rw [if_neg hsp] at h
      rcases ih h c hc with h2 | h2
      · exact Or.inl (List.mem_cons_of_mem _ h2)
      · rcases List.mem_cons.mp h2 with rfl | h3
        · exact Or.inl (List.mem_cons_self _ _)
        · exact Or.inr h3

lemma mem_pySplitWs {t line : List Char} (h : t ∈ pySplitWs line) :
    ∀ c ∈ t, c ∈ line := by
  intro c hc
  rcases mem_pySplitWsAux h c hc with h2 | h2
  · exact h2
  · cases h2

lemma mem_getLastD {α : Type} {l : List α} (d : α) (h : l ≠ []) :
    l.getLastD d ∈ l := by
  induction l with
  | nil => exact absurd rfl h
  | cons a t ih =>
    cases t with
    | nil => simp [List.getLastD]
    | cons b t2 =>
      rw [List.getLastD_cons]
      exact List.mem_cons_of_mem _ (ih (List.cons_ne_nil _ _))

lemma pyInt_nonneg {l : List Char} (hl : ('-') ∉ l) {z : Int}
    (hz : pyInt l = some z) : 0 ≤ z := by
  unfold pyInt at hz
  split at hz
  next => cases hz
  next c rest heq =>
    have hcm : c ≠ '-' := by
      intro hcc
      apply hl
      apply mem_pyStrip
      rw [heq, hcc]
      exact List.mem_cons_self _ _
    by_cases hp : c = '+'
    · rw [if_pos hp] at hz
      cases hd : pyIntDigits rest with
      | none => rw [hd] at hz; cases hz
      | some n =>
        rw [hd] at hz
        simp at hz
        rw [← hz]
        exact Int.natCast_nonneg n
    · rw [if_neg hp, if_neg hcm] at hz
      cases hd : pyIntDigits (c :: rest) with
      | none => rw [hd] at hz; cases hz
      | some n =>
        rw [hd] at hz
        simp at hz
        rw [← hz]
        exact Int.natCast_nonneg n

lemma sumAll_nn {st : Stats} (h : StatsNN st) : 0 ≤ sumAll st := by
  obtain ⟨h1, h2, h3, h4, h5⟩ := h
  unfold sumAll
  linarith

lemma updFromSummary_nn {inner : List Char} {st : Stats} (h : StatsNN st) :
    StatsNN (updFromSummary inner st) := by
  obtain ⟨h1, h2, h3, h4, h5⟩ := h
  unfold updFromSummary StatsNN
  cases findNumThenWord sPassed inner <;>
    cases findNumThenWord sFailed inner <;>
      cases findNumThenWord sError inner <;>
        cases findNumThenWord sSkipped inner <;>
          (refine ⟨?_, ?_, ?_, ?_, ?_⟩ <;>
            first
              | assumption
              | exact Int.natCast_nonneg _)

lemma applyTok_nn {t prev : List Char} {st : Stats} (hprev : ('-') ∉ prev)
    (h : StatsNN st) : StatsNN (applyTok t prev st) := by
  obtain ⟨h1, h2, h3, h4, h5⟩ := h
  unfold applyTok StatsNN
  split_ifs <;>
    (cases hpi : pyInt prev with
     | none => exact ⟨h1, h2, h3, h4, h5⟩
     | some z =>
       have hz := pyInt_nonneg hprev hpi
       refine ⟨?_, ?_, ?_, ?_, ?_⟩ <;> assumption)

lemma partsUpd_nn (lastTok : List Char) (hlast : ('-') ∉ lastTok) :
    ∀ (toks : List (List Char)), (∀ t ∈ toks, ('-') ∉ t) →
      ∀ (prevOpt : Option (List Char)),
        (∀ p, prevOpt = some p → ('-') ∉ p) →
        ∀ (st : Stats), StatsNN st →
          StatsNN (partsUpd lastTok prevOpt toks st) := by
  intro toks
  induction toks with
  | nil =>
    intro _ prevOpt _ st h
    exact h
  | cons t ts ih =>
    intro htoks prevOpt hprev st h
    rw [partsUpd]
    have hprev2 : ('-') ∉ prevOpt.getD lastTok := by
      cases prevOpt with
      | none => exact hlast
      | some p => exact hprev p rfl
    exact ih (fun u hu => htoks u (List.mem_cons_of_mem _ hu)) (some t)
      (fun p hp => by
        rw [Option.some.injEq] at hp
        rw [← hp]
        exact htoks t (List.mem_cons_self _ _))
      _ (applyTok_nn hprev2 h)

lemma scanStep2_nn {l : List Char} {st1 : Stats} {isSum : Bool}
    (hl : ('-') ∉ l) (h : StatsNN st1) : StatsNN (scanStep2 l st1 isSum).1 := by
  unfold scanStep2
  split_ifs
  · exact ⟨sumAll_nn h, h.2.1, h.2.2.1, h.2.2.2.1, h.2.2.2.2⟩
  · exact ⟨le_refl 0, h.2.1, h.2.2.1, h.2.2.2.1, h.2.2.2.2⟩
  · have htoks : ∀ t ∈ pySplitWs l, ('-') ∉ t := by
      intro t ht hc
      exact hl (mem_pySplitWs ht _ hc)
    have hlast : ('-') ∉ (pySplitWs l).getLastD [] := by
      cases hsp : pySplitWs l with
      | nil => simp [List.getLastD]
      | cons a rest =>
        intro hc
        rw [← hsp] at hc
        have hne : pySplitWs l ≠ [] := by
          rw [hsp]
          exact List.cons_ne_nil a rest
        exact hl (mem_pySplitWs (mem_getLastD [] hne) _ hc)
    exact partsUpd_nn _ hlast _ htoks none (fun p hp => by cases hp) _ h
  · exact h

lemma scanStep_nn {l : List Char} {st : Stats} (hl : ('-') ∉ l)
    (h : StatsNN st) : StatsNN (scanStep l st).1 := by
  unfold scanStep
  apply scanStep2_nn hl
  cases summaryTime l
  · exact h
  · exact updFromSummary_nn h

lemma scanLines_nn {lines : List (List Char)} :
    ∀ {st : Stats}, (∀ line ∈ lines, ('-') ∉ line) → StatsNN st →
      StatsNN (scanLines lines st).1 := by
  induction lines with
  | nil =>
    intro st _ h
    exact h
  | cons l ls ih =>
    intro st hlines h
    rw [scanLines]
    have h1 := scanStep_nn (hlines l (List.mem_cons_self _ _)) h
    cases hs : scanStep l st with
    | mk st1 ret =>
      rw [hs] at h1
      cases ret
      · exact ih (fun u hu => hlines u (List.mem_cons_of_mem _ hu)) h1
      · exact h1

lemma heuristicStep_nn {out : List Char} {st : Stats} (h : StatsNN st) :
    StatsNN (heuristicStep out st) := by
  obtain ⟨h1, h2, h3, h4, h5⟩ := h
  simp only [heuristicStep, StatsNN]
  split_ifs <;>
    (refine ⟨?_, ?_, ?_, ?_, ?_⟩ <;>
      first
        | assumption
        | exact Int.natCast_nonneg _
        | decide)

lemma finalFix_nn {st : Stats} (h : StatsNN st) : StatsNN (finalFix st) := by
  unfold finalFix
  split_ifs
  · exact ⟨sumAll_nn h, h.2.1, h.2.2.1, h.2.2.2.1, h.2.2.2.2⟩
  · exact h

lemma parsePytest_nn (out : List Char) (hno : ('-') ∉ out) :
    StatsNN (parsePytest out) := by
  have hlines : ∀ line ∈ splitOnChar ('\n') (pyStrip out), ('-') ∉ line := by
    intro line hm hc
    exact hno (mem_pyStrip (mem_splitOnChar hm _ hc))
  simp only [parsePytest]
  split_ifs
  · exact ⟨le_refl 0, le_refl 0, le_refl 0, by norm_num, le_refl 0⟩
  · have hsl := scanLines_nn hlines zeroStats_nn
    cases hsc : scanLines (splitOnChar ('\n') (pyStrip out)) zeroStats with
    | mk st ret =>
      rw [hsc] at hsl
      cases ret
      · have h2 : StatsNN (match collectedScan
            (splitOnChar ('\n') (pyStrip out)) with
            | some n => { st with collected := (n : Int) }
            | none => st) := by
          cases collectedScan (splitOnChar ('\n') (pyStrip out))
          · exact hsl
          · exact ⟨Int.natCast_nonneg _, hsl.2.1, hsl.2.2.1, hsl.2.2.2.1,
              hsl.2.2.2.2⟩
        exact finalFix_nn (heuristicStep_nn h2)
      · exact hsl

lemma parseDjango_nn (out : List Char) : StatsNN (parseDjango out) := by
  simp only [parseDjango]
  split
  next n =>
    split_ifs
    · exact ⟨Int.natCast_nonneg _, Int.natCast_nonneg _, le_refl 0, le_refl 0,
        le_refl 0⟩
    · split
      next details =>
        exact ⟨Int.natCast_nonneg _, le_max_left 0 _, Int.natCast_nonneg _,
          Int.natCast_nonneg _, Int.natCast_nonneg _⟩
      next =>
        exact ⟨Int.natCast_nonneg _, le_max_left 0 _, zero_le_one, le_refl 0,
          le_refl 0⟩
    · exact ⟨Int.natCast_nonneg _, le_refl 0, le_refl 0, le_refl 0, le_refl 0⟩
  next =>
    split_ifs
    · exact ⟨Int.natCast_nonneg _, Int.natCast_nonneg _, Int.natCast_nonneg _,
        Int.natCast_nonneg _, Int.natCast_nonneg _⟩
    · exact zeroStats_nn

lemma scanLines_none (lines : List (List Char)) :
    ∀ st : Stats, (∀ line ∈ lines, summaryTime line = none ∧
      containsSub sNoTestsRan line = false ∧ countLineHit line = false) →
      scanLines lines st = (st, false) := by
  induction lines with
  | nil =>
    intro st _
    rfl
  | cons l ls ih =>
    intro st h
    have hl := h l (List.mem_cons_self _ _)
    have hstep : scanStep l st = (st, false) := by
      simp only [scanStep, scanStep2, hl.1, hl.2.1, hl.2.2]
      simp
    rw [scanLines, hstep]
    exact ih _ (fun u hu => h u (List.mem_cons_of_mem _ hu))

lemma collectedScan_none (lines : List (List Char))
    (h : ∀ line ∈ lines,
      (containsSub sCollected line && containsSub sItem line) = false) :
    collectedScan lines = none := by
  induction lines with
  | nil => rfl
  | cons l ls ih =>
    have hl := h l (List.mem_cons_self _ _)
    rw [collectedScan, if_neg (by simp [hl])]
    exact ih (fun u hu => h u (List.mem_cons_of_mem _ hu))

lemma heuristicStep_id (out : List Char) (st : Stats)
    (hg : (anySuffix dotsPercentAt out || containsSub sPASSED out ||
      containsSub sFAILED out || containsSub sSKIPPED out) = false) :
    heuristicStep out st = st := by
  simp [heuristicStep, hg]

/-- C9 (amended): both parsers always return a `Stats` record; the custom
parser's counts are always non-negative; the generic parser's counts are
non-negative whenever the raw text contains no `-` character (a
minus-signed token next to a result keyword is otherwise stored as a
negative count); and when none of the recognized markers matches, each
parser returns the all-zero outcome. -/
theorem parser_totality_amended (out : List Char) :
    (('-') ∉ out → StatsNN (parsePytest out)) ∧
    StatsNN (parseDjango out) ∧
    (collectionErr (splitOnChar ('\n') (pyStrip out)) = false →
      (∀ line ∈ splitOnChar ('\n') (pyStrip out),
        summaryTime line = none ∧ containsSub sNoTestsRan line = false ∧
          countLineHit line = false) →
      (∀ line ∈ splitOnChar ('\n') (pyStrip out),
        (containsSub sCollected line && containsSub sItem line) = false) →
      (anySuffix dotsPercentAt out || containsSub sPASSED out ||
        containsSub sFAILED out || containsSub sSKIPPED out) = false →
      parsePytest out = zeroStats) ∧
    (ranMatch out = none →
      resultLineCount sLowOk out = 0 → resultLineCount sFAIL out = 0 →
      resultLineCount sERRORword out = 0 → resultLineCount sSkipped out = 0 →
      parseDjango out = zeroStats) := by
  refine ⟨parsePytest_nn out, parseDjango_nn out, ?_, ?_⟩
  · intro hce hmk hcol hg
    simp only [parsePytest, hce]
    rw [scanLines_none _ zeroStats hmk]
    simp only [collectedScan_none _ hcol]
    rw [heuristicStep_id out zeroStats hg]
    rfl
  · intro hran h1 h2 h3 h4
    simp [parseDjango, hran, h1, h2, h3, h4]

/-- Witness for C9 (amended) on the plain text `hello world`, which carries
no marker: both parsers return zero-valued, non-negative outcomes. -/
theorem parser_totality_amended_witness :
    StatsNN (parsePytest (("hello world").data)) ∧
    parsePytest (("hello world").data) = zeroStats ∧
    parseDjango (("hello world").data) = zeroStats :=
  ⟨(parser_totality_amended (("hello world").data)).1 (by decide),
   (parser_totality_amended (("hello world").data)).2.2.1 (by rfl)
     (by decide) (by decide) (by rfl),
   (parser_totality_amended (("hello world").data)).2.2.2 (by rfl) (by rfl)
     (by rfl) (by rfl) (by rfl)⟩

def negTokenLine : List Char := ("== 1 passed -2 failed ==").data

/-- C9 counterexample: on a bordered count line carrying the minus-signed
token `-2` before `failed`, the generic parser stores `failed = -2` and then
back-fills `collected = -1`, so the parsed counts are not all
non-negative. -/
theorem parse_pytest_negative_counts :
    parsePytest negTokenLine = ⟨-1, 1, -2, 0, 0⟩ := by
  rfl

def fixtureC2 : List Char :=
  ("======================== 1 failed, 96 warnings in 0.15s ========================\nERROR conda.cli.main_run:execute(49): conda run pytest failed. (See above for error)").data

set_option maxRecDepth 400000 in
/-- C2: on the spec fixture — the bordered `1 failed` summary with timing
followed by an unrelated conda tool-error line — the deployed generic parser
returns the all-zero stats instead of `failed = 1, passed = 0, errors = 0`:
the timing-summary branch requires the border to touch the duration (it
matches no real summary line), and the token scan skips the comma-carrying
token `failed,`. -/
theorem parse_pytest_fixture_all_zero :
    parsePytest fixtureC2 = zeroStats := by
  rfl

/-- C5: custom-runner parsing — a `Ran N test(s) in` marker sets
`collected = N`; a trailing `OK` line marks all `N` as passed with zero
failures and errors; a `FAILED (failures=X, errors=Y[, skipped=Z])` line
sets the named counts and `passed = collected - failed - errors - skipped`
floored at zero; the two concrete fixtures of the spec evaluate as stated. -/
theorem parse_django_ran_semantics (out : List Char) (n : Nat)
    (hr : ranMatch out = some n) :
    (hasOkLine out = true →
      parseDjango out = ⟨(n : Int), (n : Int), 0, 0, 0⟩) ∧
    (hasOkLine out = false → hasFailedParen out = true →
      ∀ details, failedGroup out = some details →
      parseDjango out =
        ⟨(n : Int),
         max 0 ((n : Int) -
           (((namedCount sFailure 's' details).getD 0 : Nat) : Int) -
           (((namedCount sError 's' details).getD 0 : Nat) : Int) -
           (((namedCount sSkippe 'd' details).getD 0 : Nat) : Int)),
         (((namedCount sFailure 's' details).getD 0 : Nat) : Int),
         (((namedCount sError 's' details).getD 0 : Nat) : Int),
         (((namedCount sSkippe 'd' details).getD 0 : Nat) : Int)⟩) ∧
    parseDjango (("Ran 88 tests in 5.623s\nOK").data) = ⟨88, 88, 0, 0, 0⟩ ∧
    parseDjango
        (("Ran 88 tests in 5.623s\nFAILED (failures=2, errors=1)").data) =
      ⟨88, 85, 2, 1, 0⟩ := by
  refine ⟨?_, ?_, by rfl, by rfl⟩
  · intro hok
    simp [parseDjango, hr, hok, zeroStats]
  · intro hok hfp details hd
    simp [parseDjango, hr, hok, hfp, hd, zeroStats]

/-- Witness for C5 on a three-test all-pass run. -/
theorem parse_django_ran_semantics_witness :
    parseDjango (("Ran 3 tests in 0.1s\nOK").data) = ⟨3, 3, 0, 0, 0⟩ :=
  (parse_django_ran_semantics (("Ran 3 tests in 0.1s\nOK").data) 3
    (by rfl)).1 (by rfl)

/-- C7: every run of `run_test` executes the forced teardown exactly once —
on success, patch failure, execution timeout and container-start failure
alike — and the HTTP outcome never depends on the teardown's own success,
which is discarded. -/
theorem teardown_once_and_swallowed (patch : List Char) (f : Faults)
    (b : Bool) :
    (runTestFull patch f b).2.countP isTeardown = 1 ∧
    (runTestFull patch f b).1 = (runTestFull patch f true).1 := by
  constructor
  · have hbody : (runTestBody patch f).2.countP isTeardown = 0 := by
      unfold runTestBody
      split_ifs <;> rfl
    show ((runTestBody patch f).2 ++ [Ev.teardown b]).countP isTeardown = 1
    rw [List.countP_append, hbody]
    rfl
  · rfl

/-- C8: an empty or whitespace-only patch is a success that never invokes
the patch mechanism (and can never yield the 422 patch error), while a
non-zero `git apply` on a provisioned container aborts the attempt with
HTTP 422 whose body carries the fixed prefix plus at most the first 400
characters of the tool's stderr; the mechanism runs exactly once (no retry
within the attempt) and the tests never run. -/
theorem apply_patch_semantics (patch : List Char) (f : Faults) (b : Bool) :
    ((pyStrip patch).isEmpty = true →
      (runTestFull patch f b).2.countP isApplyPatchEv = 0 ∧
      ∀ msg, (runTestFull patch f b).1 ≠ Outcome.httpErr 422 msg) ∧
    ((pyStrip patch).isEmpty = false → f.startFails = false →
      f.patchRc ≠ 0 →
      (runTestFull patch f b).1 =
        Outcome.httpErr 422 (sPatchFailedNl ++ f.patchStderr.take 400) ∧
      (f.patchStderr.take 400).length ≤ 400 ∧
      (runTestFull patch f b).2.countP isApplyPatchEv = 1 ∧
      (runTestFull patch f b).2.countP isRunTestsEv = 0) := by
  constructor
  · intro hemp
    constructor
    · show ((runTestBody patch f).2 ++
          [Ev.teardown b]).countP isApplyPatchEv = 0
      rw [List.countP_append]
      have hb : (runTestBody patch f).2.countP isApplyPatchEv = 0 := by
        unfold runTestBody
        rw [hemp]
        split_ifs <;> first | rfl | simp_all
      rw [hb]
      rfl
    · intro msg
      show (runTestBody patch f).1 ≠ _
      unfold runTestBody
      rw [hemp]
      split_ifs <;> simp_all
  · intro hemp hsf hrc
    have hbody : runTestBody patch f =
        (Outcome.httpErr 422 (sPatchFailedNl ++ f.patchStderr.take 400),
          [Ev.provision, Ev.applyPatch]) := by
      unfold runTestBody
      rw [hsf, hemp]
      simp [hrc]
    refine ⟨?_, List.length_take_le _ _, ?_, ?_⟩
    · show (runTestBody patch f).1 = _
      rw [hbody]
    · show ((runTestBody patch f).2 ++
          [Ev.teardown b]).countP isApplyPatchEv = 1
      rw [hbody]
      rfl
    · show ((runTestBody patch f).2 ++
          [Ev.teardown b]).countP isRunTestsEv = 0
      rw [hbody]
      rfl

def patchW : List Char := ("diff --git a/x b/x").data

def faultsW : Faults := ⟨false, 1, ("error: corrupt patch at line 3").data, false⟩

/-- Witness for C8 at a concrete failing patch application. -/
theorem apply_patch_semantics_witness :
    (runTestFull patchW faultsW true).1 =
        Outcome.httpErr 422 (sPatchFailedNl ++ faultsW.patchStderr.take 400) ∧
    (faultsW.patchStderr.take 400).length ≤ 400 ∧
    (runTestFull patchW faultsW true).2.countP isApplyPatchEv = 1 ∧
    (runTestFull patchW faultsW true).2.countP isRunTestsEv = 0 :=
  (apply_patch_semantics patchW faultsW true).2 (by rfl) (by rfl) (by decide)

def djangoId : List Char := ("django__django-16595").data

/-- C6 counterexample: with no `manage.py` at the repository root, the main
tester still selects the custom runner for a `django__...` instance —
runner selection is keyed on the instance id, not on the marker file. -/
theorem runner_marker_counterexample :
    runnerForTester djangoId false = RunnerKind.custom := by
  rfl

/-- C6 (amended): in tester.py the custom runner is selected iff the part of
the instance id before the first `__` equals `django`, regardless of the
marker file (which only chooses between the two Django invocation styles);
in improved_tester.py the custom runner is selected iff `manage.py` is
present at the located repository root, as the claim states. -/
theorem runner_selection_amended (instanceId : List Char) (m : Bool) :
    (runnerForTester instanceId m = RunnerKind.custom ↔
      beforeSep sDunder instanceId = sDjango) ∧
    (runnerForImproved m = RunnerKind.custom ↔ m = true) := by
  constructor
  · unfold runnerForTester
    split_ifs with h <;> simp [h]
  · unfold runnerForImproved
    cases m <;> simp

/-- Witness for C6 (amended). -/
theorem runner_selection_amended_witness :
    runnerForTester djangoId true = RunnerKind.custom :=
  (runner_selection_amended djangoId true).1.mpr (by rfl)

def i1Ex : Inst := ⟨("id1").data, ("r1").data⟩

def oEx : AttOracle := fun _ _ n => some (decide (n = 1))

def pickEx : List (List Char) → List Char := fun l => l.headD []

def w1Ex : List Char := ("w1").data

/-- C3 counterexample: a one-instance batch whose first attempt returns a
result with `valid = false` and whose retry returns a result is reported
twice in the final aggregate — the retry result is appended next to the
original attempt's result rather than replacing it. -/
theorem validate_all_duplicate_counterexample :
    countId (("id1").data)
      (validateAll oEx pickEx REPO_COMPLEXITY [i1Ex] [w1Ex] 2) = 2 := by
  rfl

/-- Witness for C3 (amended) on the same one-instance batch. -/
theorem validate_all_retry_append_witness :
    ∃ w, (i1Ex, w) ∈ flattenAssignments (dedupKeys [w1Ex])
        (distributeLoad REPO_COMPLEXITY [i1Ex] [w1Ex]) ∧
      countId i1Ex.instanceId
          (validateAll oEx pickEx REPO_COMPLEXITY [i1Ex] [w1Ex] 2) =
        (match oEx i1Ex w 0 with
         | some true => 1
         | some false =>
           1 + (if 1 ≤ 2 then
             (match oEx i1Ex (retryTarget pickEx [w1Ex] (some w)) 1 with
              | some _ => 1
              | none => 0) else 0)
         | none =>
           (if 1 ≤ 2 then
             (match oEx i1Ex (retryTarget pickEx [w1Ex] none) 1 with
              | some _ => 1
              | none => 0) else 0)) :=
  validate_all_retry_append oEx pickEx [i1Ex] [w1Ex] 2 i1Ex
    (by decide) (by decide) (by decide)

end SwebV
